import Mathlib

/-!
# Verification of the `shifra` symmetric-encryption core

Shallow embedding of the repository's TypeScript sources:

* `src/models.ts`                              — algorithm registry
* `src/keys/symmetric-key.ts`                  — validated symmetric keys
* `src/encryption/symmetric-encryption.ts`     — encrypt / decrypt engine

Strings are modelled as `List Char` (`Str`), Node `Buffer`s as `List Nat`
with every entry `< 256`.  Randomness is made explicit: every operation
that consumes system entropy takes an `entropy : Nat → Nat` stream, and
`randomBytes n entropy` returns the first `n` entropy bytes (reduced
mod 256, as a byte source).  Fallible operations return the repository's
two-variant `Result` container.

External platform collaborators (Node's `crypto` cipher primitives, the
`Buffer` hex and UTF-8 codecs) and the two repository files that are not
present under `src/` (`utils.ts`'s `isValidHex` and `errors.ts`'s
`UnsupportedOrInvalidAlgorithm`) are modelled from the specification;
each such definition carries a comment saying so.
-/

/-- JavaScript strings, modelled as their character lists. -/
abbrev Str := List Char

/-! ## The `Result` container (src/result/index.ts) -/

/-- The repository's two-variant success/failure container
(`Ok`/`Err` classes in `src/result/index.ts`). -/
inductive Result (D E : Type) where
  | ok (value : D)
  | err (error : E)
deriving DecidableEq, Repr

/-- `isOk()` from the `Result` interface. -/
def Result.isOk {D E : Type} : Result D E → Bool
  | .ok _ => true
  | .err _ => false

/-- `isErr()` from the `Result` interface. -/
def Result.isErr {D E : Type} : Result D E → Bool
  | .ok _ => false
  | .err _ => true

/-! ## Splitting and joining on `:`

`token.split(':')` and `[...].join(':')` from JavaScript.  JS
`"".split(':')` is `['']`, so the result list is never empty. -/

/-- JS `s.split(':')` on character lists. -/
def splitOnColon : Str → List Str
  | [] => [[]]
  | c :: cs =>
    match splitOnColon cs with
    | [] => [[]]
    | p :: ps => if c = ':' then [] :: p :: ps else (c :: p) :: ps

/-- JS `parts.join(':')` on character lists. -/
def joinColon : List Str → Str
  | [] => []
  | [p] => p
  | p :: q :: ps => p ++ ':' :: joinColon (q :: ps)

theorem splitOnColon_ne_nil (s : Str) : splitOnColon s ≠ [] := by
  cases s with
  | nil => simp [splitOnColon]
  | cons c cs =>
    simp only [splitOnColon]
    match h : splitOnColon cs with
    | [] => simp
    | p :: ps => by_cases hc : c = ':' <;> simp [hc]

theorem splitOnColon_append_of_no_colon (p l : Str) (hp : ':' ∉ p) :
    splitOnColon (p ++ l) =
      ((p ++ (splitOnColon l).headD []) :: (splitOnColon l).tail) := by
  induction p with
  | nil =>
    simp only [List.nil_append]
    match h : splitOnColon l with
    | [] => exact absurd h (splitOnColon_ne_nil l)
    | q :: qs => simp
  | cons c cs ih =>
    have hc : c ≠ ':' := fun h => hp (h ▸ List.mem_cons_self c cs)
    have hcs : ':' ∉ cs := fun h => hp (List.mem_cons_of_mem c h)
    simp only [List.cons_append, splitOnColon, List.append_eq]
    rw [ih hcs]
    simp [hc]

theorem splitOnColon_joinColon (parts : List Str) (hne : parts ≠ [])
    (hc : ∀ p ∈ parts, ':' ∉ p) :
    splitOnColon (joinColon parts) = parts := by
  induction parts with
  | nil => exact absurd rfl hne
  | cons p ps ih =>
    cases ps with
    | nil =>
      have hp : ':' ∉ p := hc p (List.mem_cons_self p [])
      have : joinColon [p] = p := rfl
      rw [this]
      have := splitOnColon_append_of_no_colon p [] hp
      simpa [splitOnColon] using this
    | cons q qs =>
      have hp : ':' ∉ p := hc p (List.mem_cons_self p (q :: qs))
      have hrest : ∀ r ∈ q :: qs, ':' ∉ r := fun r hr => hc r (List.mem_cons_of_mem p hr)
      have hjoin : joinColon (p :: q :: qs) = p ++ ':' :: joinColon (q :: qs) := rfl
      rw [hjoin, splitOnColon_append_of_no_colon p _ hp]
      have hsplit : splitOnColon (':' :: joinColon (q :: qs)) =
          [] :: splitOnColon (joinColon (q :: qs)) := by
        simp only [splitOnColon]
        match h : splitOnColon (joinColon (q :: qs)) with
        | [] => exact absurd h (splitOnColon_ne_nil _)
        | r :: rs => simp
      rw [hsplit, ih (by simp) hrest]
      simp

/-! ## Hex codec

`buffer.toString('hex')` and `Buffer.from(str, 'hex')`.  Node's hex
decoder consumes two-character groups from the left and stops at the
first group that is not two hex digits (a trailing lone digit is
dropped); it never throws.  Encoding is lowercase. -/

/-- Numeric value of one hex digit character (either case), or `none`. -/
def hexDigitVal (c : Char) : Option Nat :=
  let n := c.toNat
  if 48 ≤ n ∧ n ≤ 57 then some (n - 48)
  else if 97 ≤ n ∧ n ≤ 102 then some (n - 87)
  else if 65 ≤ n ∧ n ≤ 70 then some (n - 55)
  else none

/-- Lowercase hex digit character for `n < 16` (`buffer.toString('hex')`
emits lowercase). -/
def hexDigitChar (n : Nat) : Char :=
  if n < 10 then Char.ofNat (48 + n) else Char.ofNat (87 + n)

/-- `buffer.toString('hex')`: two lowercase hex digits per byte. -/
def hexEncode : List Nat → Str
  | [] => []
  | b :: bs => hexDigitChar (b / 16) :: hexDigitChar (b % 16) :: hexEncode bs

/-- `Buffer.from(str, 'hex')`: decode complete hex-digit pairs from the
left, stopping (without error) at the first invalid pair or lone
trailing character. -/
def hexDecode : Str → List Nat
  | c1 :: c2 :: rest =>
    match hexDigitVal c1, hexDigitVal c2 with
    | some h, some l => (16 * h + l) :: hexDecode rest
    | _, _ => []
  | _ => []

theorem hexDigitVal_hexDigitChar : ∀ n < 16, hexDigitVal (hexDigitChar n) = some n := by
  decide

theorem hexDigitChar_ne_colon : ∀ n < 16, hexDigitChar n ≠ ':' := by decide

theorem hexDecode_hexEncode (bs : List Nat) (hb : ∀ b ∈ bs, b < 256) :
    hexDecode (hexEncode bs) = bs := by
  induction bs with
  | nil => rfl
  | cons b bs ih =>
    have hb0 : b < 256 := hb b (List.mem_cons_self b bs)
    have hdiv : b / 16 < 16 := by omega
    have hmod : b % 16 < 16 := by omega
    simp only [hexEncode, hexDecode, hexDigitVal_hexDigitChar _ hdiv,
      hexDigitVal_hexDigitChar _ hmod]
    rw [ih (fun x hx => hb x (List.mem_cons_of_mem b hx))]
    congr 1
    omega

theorem hexDigitVal_lt {c : Char} {v : Nat} (h : hexDigitVal c = some v) : v < 16 := by
  simp only [hexDigitVal] at h
  split at h
  · injection h with h; omega
  · split at h
    · injection h with h; omega
    · split at h
      · injection h with h; omega
      · exact absurd h (by simp)

theorem hexDecode_lt : ∀ (s : Str), ∀ b ∈ hexDecode s, b < 256
  | [] => by simp [hexDecode]
  | [_] => by simp [hexDecode]
  | c1 :: c2 :: rest => by
    intro b hb
    simp only [hexDecode] at hb
    cases hh : hexDigitVal c1 with
    | none => simp [hh] at hb
    | some h =>
      cases hl : hexDigitVal c2 with
      | none => simp [hh, hl] at hb
      | some l =>
        simp only [hh, hl] at hb
        rcases List.mem_cons.mp hb with hb | hb
        · have h16 := hexDigitVal_lt hh
          have l16 := hexDigitVal_lt hl
          omega
        · exact hexDecode_lt rest b hb

theorem mem_hexEncode_is_hex_digit (bs : List Nat) (hb : ∀ b ∈ bs, b < 256) :
    ∀ c ∈ hexEncode bs, ∃ n < 16, c = hexDigitChar n := by
  induction bs with
  | nil => intro c hc; simp [hexEncode] at hc
  | cons b bs ih =>
    intro c hc
    have hb0 : b < 256 := hb b (List.mem_cons_self b bs)
    simp only [hexEncode, List.mem_cons] at hc
    rcases hc with h | h | h
    · exact ⟨b / 16, by omega, h⟩
    · exact ⟨b % 16, by omega, h⟩
    · exact ih (fun x hx => hb x (List.mem_cons_of_mem b hx)) c h

theorem colon_not_mem_hexEncode (bs : List Nat) (hb : ∀ b ∈ bs, b < 256) :
    ':' ∉ hexEncode bs := by
  intro hmem
  obtain ⟨n, hn, hc⟩ := mem_hexEncode_is_hex_digit bs hb ':' hmem
  exact hexDigitChar_ne_colon n hn hc.symm

theorem hexEncode_ne_nil (bs : List Nat) (h : bs ≠ []) : hexEncode bs ≠ [] := by
  cases bs with
  | nil => exact absurd rfl h
  | cons b bs => simp [hexEncode]

/-! ## UTF-8 codec

`Buffer.from(s, 'utf-8')` and `buffer.toString('utf-8')` — platform
collaborators.  The encoder is standard UTF-8; the decoder is total and
lenient (invalid sequences decode to U+FFFD, as Node's decoder replaces
them), and is exact on the image of the encoder. -/

/-- UTF-8 encoding of one unicode scalar value. -/
def utf8EncodeChar (c : Char) : List Nat :=
  let v := c.toNat
  if v < 0x80 then [v]
  else if v < 0x800 then [0xC0 + v / 64, 0x80 + v % 64]
  else if v < 0x10000 then [0xE0 + v / 4096, 0x80 + v / 64 % 64, 0x80 + v % 64]
  else [0xF0 + v / 262144, 0x80 + v / 4096 % 64, 0x80 + v / 64 % 64, 0x80 + v % 64]

/-- `Buffer.from(s, 'utf-8')`. -/
def utf8Encode : Str → List Nat
  | [] => []
  | c :: cs => utf8EncodeChar c ++ utf8Encode cs

/-- Is `b` a UTF-8 continuation byte? -/
def isUtf8Cont (b : Nat) : Bool := 0x80 ≤ b && b < 0xC0

/-- One-byte-at-a-time UTF-8 decoding state machine.  The state is
`none` between characters, or `some (need, acc)` while `need` more
continuation bytes are expected with `acc` the partial scalar value.
Invalid bytes decode to U+FFFD (a lenient stand-in for Node's
replacement policy; the decoder is exact on the image of `utf8Encode`,
which is all the engine ever feeds it on the success path). -/
def utf8DecodeAux : Option (Nat × Nat) → List Nat → Str
  | none, [] => []
  | none, b :: bs =>
    if b < 0x80 then Char.ofNat b :: utf8DecodeAux none bs
    else if b < 0xC0 then Char.ofNat 0xFFFD :: utf8DecodeAux none bs
    else if b < 0xE0 then utf8DecodeAux (some (1, b - 0xC0)) bs
    else if b < 0xF0 then utf8DecodeAux (some (2, b - 0xE0)) bs
    else utf8DecodeAux (some (3, b - 0xF0)) bs
  | some _, [] => [Char.ofNat 0xFFFD]
  | some (need, acc), b :: bs =>
    if isUtf8Cont b then
      if need = 1 then Char.ofNat (acc * 64 + (b - 0x80)) :: utf8DecodeAux none bs
      else utf8DecodeAux (some (need - 1, acc * 64 + (b - 0x80))) bs
    else Char.ofNat 0xFFFD :: utf8DecodeAux none bs

/-- `buffer.toString('utf-8')`: total lenient decoder; on byte sequences
produced by `utf8Encode` it recovers the original characters. -/
def utf8Decode (bs : List Nat) : Str := utf8DecodeAux none bs

theorem char_toNat_lt (c : Char) : c.toNat < 0x110000 := by
  rcases c.valid with h | ⟨_, h⟩
  · exact Nat.lt_trans h (by norm_num)
  · exact h

theorem utf8EncodeChar_lt (c : Char) : ∀ b ∈ utf8EncodeChar c, b < 256 := by
  have hv := char_toNat_lt c
  intro b hb
  simp only [utf8EncodeChar] at hb
  by_cases h1 : c.toNat < 128
  · simp only [if_pos h1, List.mem_singleton] at hb
    omega
  · by_cases h2 : c.toNat < 2048
    · simp only [if_neg h1, if_pos h2, List.mem_cons, List.not_mem_nil, or_false] at hb
      rcases hb with rfl | rfl <;> omega
    · by_cases h3 : c.toNat < 65536
      · simp only [if_neg h1, if_neg h2, if_pos h3, List.mem_cons, List.not_mem_nil,
          or_false] at hb
        rcases hb with rfl | rfl | rfl <;> omega
      · simp only [if_neg h1, if_neg h2, if_neg h3, List.mem_cons, List.not_mem_nil,
          or_false] at hb
        rcases hb with rfl | rfl | rfl | rfl <;> omega

theorem utf8EncodeChar_ne_nil (c : Char) : utf8EncodeChar c ≠ [] := by
  simp only [utf8EncodeChar]
  by_cases h1 : c.toNat < 128 <;> by_cases h2 : c.toNat < 2048 <;>
    by_cases h3 : c.toNat < 65536 <;> simp [h1, h2, h3]

theorem utf8Encode_ne_nil (s : Str) (h : s ≠ []) : utf8Encode s ≠ [] := by
  cases s with
  | nil => exact absurd rfl h
  | cons c cs =>
    simp only [utf8Encode]
    intro hcontra
    exact utf8EncodeChar_ne_nil c (List.append_eq_nil.mp hcontra).1

theorem utf8Encode_lt (s : Str) : ∀ b ∈ utf8Encode s, b < 256 := by
  induction s with
  | nil => simp [utf8Encode]
  | cons c cs ih =>
    intro b hb
    simp only [utf8Encode, List.mem_append] at hb
    rcases hb with hb | hb
    · exact utf8EncodeChar_lt c b hb
    · exact ih b hb

theorem isUtf8Cont_of_range {b : Nat} (h1 : 0x80 ≤ b) (h2 : b < 0xC0) :
    isUtf8Cont b = true := by
  simp only [isUtf8Cont, Bool.and_eq_true, decide_eq_true_eq]
  omega

theorem utf8Decode_utf8EncodeChar (c : Char) (rest : List Nat) :
    utf8DecodeAux none (utf8EncodeChar c ++ rest) = c :: utf8DecodeAux none rest := by
  have hv := char_toNat_lt c
  have hofNat : Char.ofNat c.toNat = c := Char.ofNat_toNat c
  simp only [utf8EncodeChar]
  by_cases h1 : c.toNat < 0x80
  · simp only [if_pos h1, List.cons_append, List.nil_append]
    rw [utf8DecodeAux, if_pos h1, hofNat]
  · by_cases h2 : c.toNat < 0x800
    · simp only [if_neg h1, if_pos h2, List.cons_append, List.nil_append]
      rw [utf8DecodeAux, if_neg (by omega), if_neg (by omega), if_pos (by omega)]
      rw [utf8DecodeAux, if_pos (isUtf8Cont_of_range (by omega) (by omega)), if_pos rfl]
      have hval : (0xC0 + c.toNat / 64 - 0xC0) * 64 + (0x80 + c.toNat % 64 - 0x80) = c.toNat := by
        omega
      rw [hval, hofNat]
    · by_cases h3 : c.toNat < 0x10000
      · simp only [if_neg h1, if_neg h2, if_pos h3, List.cons_append, List.nil_append]
        rw [utf8DecodeAux, if_neg (by omega), if_neg (by omega), if_neg (by omega),
          if_pos (by omega)]
        rw [utf8DecodeAux, if_pos (isUtf8Cont_of_range (by omega) (by omega)),
          if_neg (by omega)]
        rw [utf8DecodeAux, if_pos (isUtf8Cont_of_range (by omega) (by omega)), if_pos rfl]
        have hval : ((0xE0 + c.toNat / 4096 - 0xE0) * 64 + (0x80 + c.toNat / 64 % 64 - 0x80)) * 64
            + (0x80 + c.toNat % 64 - 0x80) = c.toNat := by
          omega
        rw [hval, hofNat]
      · simp only [if_neg h1, if_neg h2, if_neg h3, List.cons_append, List.nil_append]
        rw [utf8DecodeAux, if_neg (by omega), if_neg (by omega), if_neg (by omega),
          if_neg (by omega)]
        rw [utf8DecodeAux, if_pos (isUtf8Cont_of_range (by omega) (by omega)),
          if_neg (by omega)]
        rw [utf8DecodeAux, if_pos (isUtf8Cont_of_range (by omega) (by omega)),
          if_neg (by omega)]
        rw [utf8DecodeAux, if_pos (isUtf8Cont_of_range (by omega) (by omega)), if_pos rfl]
        have hval : (((0xF0 + c.toNat / 262144 - 0xF0) * 64 + (0x80 + c.toNat / 4096 % 64 - 0x80))
            * 64 + (0x80 + c.toNat / 64 % 64 - 0x80)) * 64 + (0x80 + c.toNat % 64 - 0x80)
            = c.toNat := by
          omega
        rw [hval, hofNat]

theorem utf8Decode_utf8Encode (s : Str) : utf8Decode (utf8Encode s) = s := by
  unfold utf8Decode
  induction s with
  | nil => rfl
  | cons c cs ih =>
    simp only [utf8Encode]
    rw [utf8Decode_utf8EncodeChar, ih]

/-! ## Cipher primitives (external collaborators)

Modelled from the spec: the underlying AES-GCM / AES-CBC primitives of
Node's `crypto` module are external collaborators exposed as
`encryptBlock(algorithm, key, iv, plaintext) -> (ciphertext, tag?)` and
`decryptBlock(algorithm, key, iv, ciphertext, tag?) -> plaintext`.  The
model is an idealized cipher: ciphertext is the plaintext XORed with a
keystream derived from key, IV and position (a bijection, as a block
cipher in counter-like modes is); the GCM authentication tag is a value
that authenticates exactly the `(key, iv, ciphertext)` triple (the spec:
"the cipher step fails if the tag does not authenticate the
ciphertext+IV+algorithm context"); CBC applies PKCS#7 padding before
masking, and unpadding fails on bad padding exactly as `decipher.final()`
throws. -/

/-- Little-endian base-256 value of a byte list. -/
def ofDigits256 : List Nat → Nat
  | [] => 0
  | b :: bs => b + 256 * ofDigits256 bs

/-- Little-endian base-256 digits, fuel-driven so that it is structurally
recursive (fuel `n` always suffices for value `n`). -/
def natDigits256Go : Nat → Nat → List Nat
  | 0, _ => []
  | fuel + 1, n => if n = 0 then [] else n % 256 :: natDigits256Go fuel (n / 256)

/-- Little-endian base-256 digits of `n` (empty for `0`). -/
def natDigits256 (n : Nat) : List Nat := natDigits256Go n n

theorem ofDigits256_natDigits256Go (fuel n : Nat) (h : n ≤ fuel) :
    ofDigits256 (natDigits256Go fuel n) = n := by
  induction fuel generalizing n with
  | zero => interval_cases n; rfl
  | succ fuel ih =>
    by_cases hn : n = 0
    · simp [natDigits256Go, hn, ofDigits256]
    · have hdiv : n / 256 ≤ fuel := by
        have : n / 256 < n := Nat.div_lt_self (by omega) (by omega)
        omega
      simp only [natDigits256Go, if_neg hn, ofDigits256, ih (n / 256) hdiv]
      omega

theorem ofDigits256_natDigits256 (n : Nat) : ofDigits256 (natDigits256 n) = n :=
  ofDigits256_natDigits256Go n n (Nat.le_refl n)

theorem natDigits256_injective {m n : Nat} (h : natDigits256 m = natDigits256 n) : m = n := by
  have := ofDigits256_natDigits256 m
  rw [h, ofDigits256_natDigits256] at this
  omega

theorem natDigits256Go_lt (fuel n : Nat) : ∀ b ∈ natDigits256Go fuel n, b < 256 := by
  induction fuel generalizing n with
  | zero => simp [natDigits256Go]
  | succ fuel ih =>
    intro b hb
    by_cases hn : n = 0
    · simp [natDigits256Go, hn] at hb
    · simp only [natDigits256Go, if_neg hn, List.mem_cons] at hb
      rcases hb with rfl | hb
      · omega
      · exact ih (n / 256) b hb

theorem natDigits256_lt (n : Nat) : ∀ b ∈ natDigits256 n, b < 256 :=
  natDigits256Go_lt n n

theorem natDigits256_ne_nil {n : Nat} (h : 0 < n) : natDigits256 n ≠ [] := by
  unfold natDigits256
  cases n with
  | zero => omega
  | succ m => simp [natDigits256Go]

theorem ofDigits256_injOn {as bs : List Nat} (hlen : as.length = bs.length)
    (ha : ∀ a ∈ as, a < 256) (hb : ∀ b ∈ bs, b < 256)
    (h : ofDigits256 as = ofDigits256 bs) : as = bs := by
  induction as generalizing bs with
  | nil => cases bs with
    | nil => rfl
    | cons b bs => simp at hlen
  | cons a as ih =>
    cases bs with
    | nil => simp at hlen
    | cons b bs =>
      simp only [ofDigits256] at h
      have ha0 : a < 256 := ha a (List.mem_cons_self a as)
      have hb0 : b < 256 := hb b (List.mem_cons_self b bs)
      have hab : a = b ∧ ofDigits256 as = ofDigits256 bs := by
        constructor <;> omega
      rw [hab.1, ih (by simpa using hlen) (fun x hx => ha x (List.mem_cons_of_mem a hx))
        (fun x hx => hb x (List.mem_cons_of_mem b hx)) hab.2]

/-- Injective encoding of a byte list into one natural number
(length paired with base-256 value). -/
def encBytes (bs : List Nat) : Nat := Nat.pair bs.length (ofDigits256 bs)

theorem encBytes_injOn {as bs : List Nat} (ha : ∀ a ∈ as, a < 256)
    (hb : ∀ b ∈ bs, b < 256) (h : encBytes as = encBytes bs) : as = bs := by
  unfold encBytes at h
  have hp := Nat.pair_eq_pair.mp h
  exact ofDigits256_injOn hp.1 ha hb hp.2

/-- Keystream byte at position `i` for a given key and IV. -/
def ksByte (key iv : List Nat) (i : Nat) : Nat :=
  (ofDigits256 key + ofDigits256 iv + i) % 256

/-- XOR-keystream masking: the idealized cipher core, a self-inverse
bijection on byte lists for each `(key, iv)`. -/
def maskBytes (key iv : List Nat) : Nat → List Nat → List Nat
  | _, [] => []
  | i, b :: bs => (b ^^^ ksByte key iv i) :: maskBytes key iv (i + 1) bs

theorem maskBytes_maskBytes (key iv : List Nat) (i : Nat) (bs : List Nat) :
    maskBytes key iv i (maskBytes key iv i bs) = bs := by
  induction bs generalizing i with
  | nil => rfl
  | cons b bs ih =>
    simp only [maskBytes, ih]
    rw [Nat.xor_assoc, Nat.xor_self, Nat.xor_zero]

theorem maskBytes_length (key iv : List Nat) (i : Nat) (bs : List Nat) :
    (maskBytes key iv i bs).length = bs.length := by
  induction bs generalizing i with
  | nil => rfl
  | cons b bs ih => simp [maskBytes, ih]

theorem maskBytes_lt (key iv : List Nat) (i : Nat) (bs : List Nat)
    (h : ∀ b ∈ bs, b < 256) : ∀ b ∈ maskBytes key iv i bs, b < 256 := by
  induction bs generalizing i with
  | nil => simp [maskBytes]
  | cons b bs ih =>
    intro x hx
    simp only [maskBytes, List.mem_cons] at hx
    rcases hx with rfl | hx
    · have hb : b < 256 := h b (List.mem_cons_self b bs)
      have hk : ksByte key iv i < 256 := Nat.mod_lt _ (by omega)
      have : (256 : Nat) = 2 ^ 8 := by norm_num
      rw [this] at hb hk ⊢
      exact Nat.xor_lt_two_pow hb hk
    · exact ih (i + 1) (fun y hy => h y (List.mem_cons_of_mem b hy)) x hx

/-- GCM authentication tag of the idealized AEAD cipher: a byte string
that determines — and is determined by — the `(key, iv, ciphertext)`
triple it authenticates.  Never empty. -/
def mkTag (key iv ct : List Nat) : List Nat :=
  natDigits256 (1 + Nat.pair (encBytes key) (Nat.pair (encBytes iv) (encBytes ct)))

theorem mkTag_ne_nil (key iv ct : List Nat) : mkTag key iv ct ≠ [] :=
  natDigits256_ne_nil (by omega)

theorem mkTag_lt (key iv ct : List Nat) : ∀ b ∈ mkTag key iv ct, b < 256 :=
  natDigits256_lt _

theorem mkTag_inj {key iv iv' ct ct' : List Nat}
    (hiv : ∀ b ∈ iv, b < 256) (hiv' : ∀ b ∈ iv', b < 256)
    (hct : ∀ b ∈ ct, b < 256) (hct' : ∀ b ∈ ct', b < 256)
    (h : mkTag key iv ct = mkTag key iv' ct') : iv = iv' ∧ ct = ct' := by
  unfold mkTag at h
  have h1 := natDigits256_injective h
  have h2 := Nat.pair_eq_pair.mp (by omega : Nat.pair (encBytes key)
    (Nat.pair (encBytes iv) (encBytes ct)) = Nat.pair (encBytes key)
    (Nat.pair (encBytes iv') (encBytes ct')))
  have h3 := Nat.pair_eq_pair.mp h2.2
  exact ⟨encBytes_injOn hiv hiv' h3.1, encBytes_injOn hct hct' h3.2⟩

/-- `encryptBlock` for the GCM modes: ciphertext plus authentication tag. -/
def gcmEncryptBlock (key iv pt : List Nat) : List Nat × List Nat :=
  let ct := maskBytes key iv 0 pt
  (ct, mkTag key iv ct)

/-- `decryptBlock` for the GCM modes: authenticate, then invert the
mask; `none` models the `Unsupported state or unable to authenticate
data` exception thrown by `decipher.final()`. -/
def gcmDecryptBlock (key iv ct tag : List Nat) : Option (List Nat) :=
  if tag = mkTag key iv ct then some (maskBytes key iv 0 ct) else none

/-- PKCS#7 padding to 16-byte blocks, as AES-CBC applies it. -/
def pkcs7Pad (bs : List Nat) : List Nat :=
  let padLen := 16 - bs.length % 16
  bs ++ List.replicate padLen padLen

/-- PKCS#7 unpadding; `none` models the bad-padding exception from
`decipher.final()`. -/
def pkcs7Unpad (bs : List Nat) : Option (List Nat) :=
  match bs.getLast? with
  | none => none
  | some n =>
    if 1 ≤ n ∧ n ≤ 16 ∧ n ≤ bs.length ∧ bs.drop (bs.length - n) = List.replicate n n
    then some (bs.take (bs.length - n)) else none

theorem pkcs7Unpad_pkcs7Pad (bs : List Nat) : pkcs7Unpad (pkcs7Pad bs) = some bs := by
  have hp1 : 1 ≤ 16 - bs.length % 16 := by
    have := Nat.mod_lt bs.length (show 0 < 16 by omega)
    omega
  have hp16 : 16 - bs.length % 16 ≤ 16 := by omega
  set p := 16 - bs.length % 16 with hp
  have hrep : (List.replicate p p) ≠ [] := by
    cases hq : p with
    | zero => omega
    | succ q => simp [List.replicate]
  have hlen : (pkcs7Pad bs).length = bs.length + p := by
    simp [pkcs7Pad, List.length_append, List.length_replicate, hp]
  have hlast : (pkcs7Pad bs).getLast? = some p := by
    show (bs ++ List.replicate p p).getLast? = some p
    rw [List.getLast?_append_of_ne_nil bs hrep]
    obtain ⟨q, hq⟩ : ∃ q, p = q + 1 := ⟨p - 1, by omega⟩
    rw [hq, List.replicate_succ', List.getLast?_concat]
  have hdrop : (pkcs7Pad bs).drop ((pkcs7Pad bs).length - p) = List.replicate p p := by
    rw [hlen]
    unfold pkcs7Pad
    rw [show bs.length + p - p = bs.length by omega, ← hp]
    exact List.drop_left bs (List.replicate p p)
  have htake : (pkcs7Pad bs).take ((pkcs7Pad bs).length - p) = bs := by
    rw [hlen]
    unfold pkcs7Pad
    rw [show bs.length + p - p = bs.length by omega, ← hp]
    exact List.take_left bs (List.replicate p p)
  have hstep : pkcs7Unpad (pkcs7Pad bs) =
      if 1 ≤ p ∧ p ≤ 16 ∧ p ≤ (pkcs7Pad bs).length ∧
        (pkcs7Pad bs).drop ((pkcs7Pad bs).length - p) = List.replicate p p
      then some ((pkcs7Pad bs).take ((pkcs7Pad bs).length - p)) else none := by
    unfold pkcs7Unpad
    rw [hlast]
  rw [hstep, if_pos ⟨hp1, hp16, by omega, hdrop⟩, htake]

theorem pkcs7Pad_lt (bs : List Nat) (h : ∀ b ∈ bs, b < 256) :
    ∀ b ∈ pkcs7Pad bs, b < 256 := by
  intro b hb
  unfold pkcs7Pad at hb
  rcases List.mem_append.mp hb with hb | hb
  · exact h b hb
  · have := List.eq_of_mem_replicate hb
    omega

theorem pkcs7Pad_ne_nil (bs : List Nat) : pkcs7Pad bs ≠ [] := by
  unfold pkcs7Pad
  intro hcontra
  have := List.append_eq_nil.mp hcontra
  have h1 : 1 ≤ 16 - bs.length % 16 := by
    have := Nat.mod_lt bs.length (show 0 < 16 by omega)
    omega
  have := this.2
  rw [List.replicate_eq_nil_iff] at this
  omega

/-- `encryptBlock` for the CBC modes: pad, then mask. -/
def cbcEncryptBlock (key iv pt : List Nat) : List Nat :=
  maskBytes key iv 0 (pkcs7Pad pt)

/-- `decryptBlock` for the CBC modes: unmask, then unpad. -/
def cbcDecryptBlock (key iv ct : List Nat) : Option (List Nat) :=
  pkcs7Unpad (maskBytes key iv 0 ct)

/-! ## Algorithm registry (src/models.ts) -/

/-- The six supported algorithm identifiers
(`SymmetricEncryptionAlgorithm` in `src/models.ts`). -/
inductive SymmetricEncryptionAlgorithm where
  | aes128gcm
  | aes192gcm
  | aes256gcm
  | aes128cbc
  | aes192cbc
  | aes256cbc
deriving DecidableEq, Repr

open SymmetricEncryptionAlgorithm

/-- The identifier string of each algorithm. -/
def algId : SymmetricEncryptionAlgorithm → Str
  | aes128gcm => "aes-128-gcm".toList
  | aes192gcm => "aes-192-gcm".toList
  | aes256gcm => "aes-256-gcm".toList
  | aes128cbc => "aes-128-cbc".toList
  | aes192cbc => "aes-192-cbc".toList
  | aes256cbc => "aes-256-cbc".toList

/-- `AlgorithmConfig` from `src/models.ts`. -/
structure AlgorithmConfig where
  keyLength : Nat
  ivLength : Nat
  tokenFormat : Str
deriving DecidableEq, Repr

/-- The registry table `symmetricAlgorithmConfig` from `src/models.ts`,
verbatim (note the GCM `ivLength` of 92 — the value in the source). -/
def symmetricAlgorithmConfig : SymmetricEncryptionAlgorithm → AlgorithmConfig
  | aes128gcm => ⟨128, 92, "algorithm:iv:authTag:ciphertext".toList⟩
  | aes192gcm => ⟨192, 92, "algorithm:iv:authTag:ciphertext".toList⟩
  | aes256gcm => ⟨256, 92, "algorithm:iv:authTag:ciphertext".toList⟩
  | aes128cbc => ⟨128, 128, "algorithm:iv:ciphertext".toList⟩
  | aes192cbc => ⟨192, 128, "algorithm:iv:ciphertext".toList⟩
  | aes256cbc => ⟨256, 128, "algorithm:iv:ciphertext".toList⟩

/-- `supportedSymmetricKeyLengths` from `src/models.ts`:
`Object.values(symmetricAlgorithmConfig).map(c => c.keyLength)` in
declaration order. -/
def supportedSymmetricKeyLengths : List Nat :=
  [aes128gcm, aes192gcm, aes256gcm, aes128cbc, aes192cbc, aes256cbc].map
    (fun a => (symmetricAlgorithmConfig a).keyLength)

/-- The GCM-group membership test that `encrypt`, `decrypt` and
`parseToken` each perform inline
(`algorithm === 'aes-128-gcm' || ... || 'aes-256-gcm'`). -/
def isGcm : SymmetricEncryptionAlgorithm → Bool
  | aes128gcm | aes192gcm | aes256gcm => true
  | aes128cbc | aes192cbc | aes256cbc => false

/-! ## Error kinds (section 7 of the spec)

The source signals failures through distinct `Error` subclasses and
message strings; this type gives each site its spec-level kind.
`invalidEncoding` is part of the spec's taxonomy but, as the theorems
below show, no code path produces it. -/

/-- Spec section 7 error taxonomy, one constructor per kind. -/
inductive EncError where
  /-- `InvalidKeyLengthError` in `src/keys/symmetric-key.ts`. -/
  | invalidKeyLength (providedBits : Nat) (supported : List Nat)
  /-- Declared by the spec for non-decodable input; no code site produces it. -/
  | invalidEncoding
  /-- `'plaintext can not be empty'` in `encrypt`. -/
  | emptyPlaintext
  /-- `AlgorithmKeyLengthMismatch` in `src/encryption/symmetric-encryption.ts`
  (its message reports the expected and the provided bit lengths). -/
  | algorithmKeyMismatch (expectedBits providedBits : Nat)
      (algorithm : SymmetricEncryptionAlgorithm)
  /-- `UnsupportedOrInvalidAlgorithm` from `errors.ts` (modelled from the
  spec: carries the offending algorithm string). -/
  | unsupportedOrInvalidAlgorithm (algorithmPart : Str)
  /-- `'Invalid token'` in `parseTokenForAesGcm` / `parseTokenForAesCbc`. -/
  | invalidToken
  /-- `'Authentication tag is empty'` in `encrypt`. -/
  | authTagEmpty
  /-- `'ciphertext is empty'` in `encrypt`. -/
  | ciphertextEmpty
  /-- `'Failed to decrypt'` (empty decrypted buffer) and the caught cipher
  exception `'decrypt encountered an exception'` — the spec's
  `DecryptionFailed` kind covers both sites. -/
  | decryptionFailed
  /-- A caught exception wrapped at a construction-site boundary
  (`'generate encountered an exception'`), original cause preserved. -/
  | internalFailure (cause : Nat × List Nat)
deriving DecidableEq, Repr

/-! ## Randomness -/

/-- `crypto.randomBytes(size)` with the entropy stream explicit.  Node
truncates a fractional `size` to an integer (`size >>> 0`), which the
caller-side `Nat` division `/ 8` already performs in this embedding. -/
def randomBytes (n : Nat) (entropy : Nat → Nat) : List Nat :=
  (List.range n).map (fun i => entropy i % 256)

theorem randomBytes_length (n : Nat) (entropy : Nat → Nat) :
    (randomBytes n entropy).length = n := by
  simp [randomBytes]

theorem randomBytes_lt (n : Nat) (entropy : Nat → Nat) :
    ∀ b ∈ randomBytes n entropy, b < 256 := by
  intro b hb
  simp only [randomBytes, List.mem_map] at hb
  obtain ⟨i, _, rfl⟩ := hb
  exact Nat.mod_lt _ (by omega)

/-! ## Symmetric keys (src/keys/symmetric-key.ts) -/

/-- `SymmetricKey`: opaque holder of the raw key bytes.  The TS class
has a private constructor that throws `InvalidKeyLengthError` unless
`rawKey.length * 8` is a supported length; the two factories below are
the only construction paths. -/
structure SymmetricKey where
  rawKey : List Nat
deriving DecidableEq, Repr

/-- `SymmetricKey.generate(lengthInBits)`.  `randomBytes(lengthInBits/8)`
draws the key; the private constructor validates the resulting byte
length, and a constructor throw is caught and wrapped
(`'generate encountered an exception'`). -/
def SymmetricKey.generate (lengthInBits : Nat) (entropy : Nat → Nat) :
    Result SymmetricKey EncError :=
  let randomKeyBuffer := randomBytes (lengthInBits / 8) entropy
  let keyLengthInBits := randomKeyBuffer.length * 8
  if keyLengthInBits ∈ supportedSymmetricKeyLengths then
    .ok ⟨randomKeyBuffer⟩
  else
    .err (.internalFailure (keyLengthInBits, supportedSymmetricKeyLengths))

/-- `SymmetricKey.fromString(str, 'hex')`.  `Buffer.from(str, 'hex')`
never throws (it decodes the longest prefix of valid hex pairs), so the
only failure is the explicit `InvalidKeyLengthError` on an unsupported
decoded byte length. -/
def SymmetricKey.fromString (str : Str) : Result SymmetricKey EncError :=
  let keyBuffer := hexDecode str
  let keyLengthInBits := keyBuffer.length * 8
  if keyLengthInBits ∈ supportedSymmetricKeyLengths then
    .ok ⟨keyBuffer⟩
  else
    .err (.invalidKeyLength keyLengthInBits supportedSymmetricKeyLengths)

/-! ## Token data objects and parsing (src/encryption/symmetric-encryption.ts) -/

/-- `EncryptionDataObject`: the union of `AesGcmEncryptionDataObject`
(`authTag = some _`) and `AesCbcEncryptionDataObject` (`authTag = none`). -/
structure EncryptionDataObject where
  algorithm : SymmetricEncryptionAlgorithm
  iv : List Nat
  token : Str
  ciphertext : List Nat
  authTag : Option (List Nat)
deriving DecidableEq, Repr

/-- Modelled from the spec: `isValidHex` from the missing `utils.ts` —
"All other fields are lowercase hexadecimal …; every subsequent field
must decode as valid hex".  A string is valid hex when it is non-empty
and all its characters are hex digits. -/
def isValidHex (s : Str) : Bool :=
  !s.isEmpty && s.all (fun c => (hexDigitVal c).isSome)

/-- `parseTokenForAesGcm` (symmetric-encryption.ts lines 43-84). -/
def parseTokenForAesGcm (algorithmPart : SymmetricEncryptionAlgorithm)
    (ivPart tagPart ciphertextPart : Str) (token : Str) :
    Result EncryptionDataObject EncError :=
  if ivPart.isEmpty || tagPart.isEmpty || ciphertextPart.isEmpty
      || !isValidHex ivPart || !isValidHex tagPart || !isValidHex ciphertextPart then
    .err .invalidToken
  else
    .ok { algorithm := algorithmPart, iv := hexDecode ivPart,
          authTag := some (hexDecode tagPart),
          ciphertext := hexDecode ciphertextPart, token := token }

/-- `parseTokenForAesCbc` (symmetric-encryption.ts lines 86-123). -/
def parseTokenForAesCbc (algorithmPart : SymmetricEncryptionAlgorithm)
    (ivPart ciphertextPart : Str) (token : Str) :
    Result EncryptionDataObject EncError :=
  if ivPart.isEmpty || ciphertextPart.isEmpty
      || !isValidHex ivPart || !isValidHex ciphertextPart then
    .err .invalidToken
  else
    .ok { algorithm := algorithmPart, iv := hexDecode ivPart, authTag := none,
          ciphertext := hexDecode ciphertextPart, token := token }

/-- `parseToken` (symmetric-encryption.ts lines 125-152).  Note the
branch structure: a recognized GCM identifier with a field count other
than 4 (or CBC with other than 3) falls through to the `else` and is
reported as `UnsupportedOrInvalidAlgorithm`, not as `'Invalid token'`.
The TS code narrows `algorithmPart`'s string type in each branch; here
the corresponding constructor is selected explicitly. -/
def parseToken (token : Str) : Result EncryptionDataObject EncError :=
  let parts := splitOnColon token
  let algorithmPart := parts.getD 0 []
  if (algorithmPart = algId aes256gcm ∨ algorithmPart = algId aes128gcm
      ∨ algorithmPart = algId aes192gcm) ∧ parts.length = 4 then
    let alg := if algorithmPart = algId aes256gcm then aes256gcm
      else if algorithmPart = algId aes128gcm then aes128gcm else aes192gcm
    parseTokenForAesGcm alg (parts.getD 1 []) (parts.getD 2 []) (parts.getD 3 []) token
  else if (algorithmPart = algId aes256cbc ∨ algorithmPart = algId aes128cbc
      ∨ algorithmPart = algId aes192cbc) ∧ parts.length = 3 then
    let alg := if algorithmPart = algId aes256cbc then aes256cbc
      else if algorithmPart = algId aes128cbc then aes128cbc else aes192cbc
    parseTokenForAesCbc alg (parts.getD 1 []) (parts.getD 2 []) token
  else
    .err (.unsupportedOrInvalidAlgorithm algorithmPart)

/-! ## encrypt (symmetric-encryption.ts lines 232-312) -/

/-- `encrypt({algorithm, key, plainText, plainTextEncoding: 'utf-8'})`,
with the entropy stream for the IV draw made explicit.  The cipher
calls are the idealized primitives above; they are total, so the
`catch` wrapper has no reachable failure path in the model. -/
def encrypt (algorithm : SymmetricEncryptionAlgorithm) (key : SymmetricKey)
    (plainText : Str) (entropy : Nat → Nat) :
    Result EncryptionDataObject EncError :=
  if plainText.length = 0 then .err .emptyPlaintext
  else
    let plainTextBuffer := utf8Encode plainText
    let rawKey := key.rawKey
    let expectedKeyLengthInBits := (symmetricAlgorithmConfig algorithm).keyLength
    let rawKeyLengthInBits := rawKey.length * 8
    if rawKeyLengthInBits ≠ expectedKeyLengthInBits then
      .err (.algorithmKeyMismatch expectedKeyLengthInBits rawKeyLengthInBits algorithm)
    else
      let iv := randomBytes ((symmetricAlgorithmConfig algorithm).ivLength / 8) entropy
      if isGcm algorithm then
        let (ciphertext, authTag) := gcmEncryptBlock rawKey iv plainTextBuffer
        if authTag.length = 0 then .err .authTagEmpty
        else
          let token := joinColon
            [algId algorithm, hexEncode iv, hexEncode authTag, hexEncode ciphertext]
          .ok { algorithm := algorithm, iv := iv, authTag := some authTag,
                ciphertext := ciphertext, token := token }
      else
        let ciphertext := cbcEncryptBlock rawKey iv plainTextBuffer
        if ciphertext.length = 0 then .err .ciphertextEmpty
        else
          let token := joinColon [algId algorithm, hexEncode iv, hexEncode ciphertext]
          .ok { algorithm := algorithm, iv := iv, authTag := none,
                ciphertext := ciphertext, token := token }

/-! ## decrypt (symmetric-encryption.ts lines 338-390) -/

/-- `decrypt({key, token})`.  A cipher failure (authentication or
padding) surfaces through the `catch` wrapper; together with the
empty-buffer check it is the spec's `DecryptionFailed` kind. -/
def decrypt (token : Str) (key : SymmetricKey) : Result Str EncError :=
  match parseToken token with
  | .err e => .err e
  | .ok parsed =>
    let rawKey := key.rawKey
    let keyLengthInBits := (symmetricAlgorithmConfig parsed.algorithm).keyLength
    let rawKeyLengthInBits := rawKey.length * 8
    if rawKeyLengthInBits ≠ keyLengthInBits then
      .err (.algorithmKeyMismatch keyLengthInBits rawKeyLengthInBits parsed.algorithm)
    else
      let decryptedData? :=
        if isGcm parsed.algorithm then
          gcmDecryptBlock rawKey parsed.iv parsed.ciphertext (parsed.authTag.getD [])
        else
          cbcDecryptBlock rawKey parsed.iv parsed.ciphertext
      match decryptedData? with
      | none => .err .decryptionFailed
      | some decryptedData =>
        if decryptedData.length = 0 then .err .decryptionFailed
        else .ok (utf8Decode decryptedData)

/-! ## Characterization lemmas -/

theorem algId_no_colon (alg : SymmetricEncryptionAlgorithm) : ':' ∉ algId alg := by
  cases alg <;> decide

theorem isEmpty_eq_false_of_ne_nil {α : Type} {l : List α} (h : l ≠ []) :
    l.isEmpty = false := by
  cases l with
  | nil => exact absurd rfl h
  | cons a l => rfl

theorem isValidHex_hexEncode (bs : List Nat) (hne : bs ≠ [])
    (hb : ∀ b ∈ bs, b < 256) : isValidHex (hexEncode bs) = true := by
  unfold isValidHex
  rw [isEmpty_eq_false_of_ne_nil (hexEncode_ne_nil bs hne)]
  simp only [Bool.not_false, Bool.true_and, List.all_eq_true]
  intro c hc
  obtain ⟨n, hn, rfl⟩ := mem_hexEncode_is_hex_digit bs hb c hc
  rw [hexDigitVal_hexDigitChar n hn]
  rfl

/-- The IV byte count drawn by `encrypt`: `ivLength / 8` with the
truncating division this becomes on the Node side (`92 / 8 = 11`). -/
def ivByteCount (algorithm : SymmetricEncryptionAlgorithm) : Nat :=
  (symmetricAlgorithmConfig algorithm).ivLength / 8

/-- The IV drawn by one `encrypt` call. -/
def encIv (algorithm : SymmetricEncryptionAlgorithm) (entropy : Nat → Nat) : List Nat :=
  randomBytes (ivByteCount algorithm) entropy

/-- GCM ciphertext of one `encrypt` call. -/
def gcmCt (algorithm : SymmetricEncryptionAlgorithm) (key : SymmetricKey)
    (plainText : Str) (entropy : Nat → Nat) : List Nat :=
  maskBytes key.rawKey (encIv algorithm entropy) 0 (utf8Encode plainText)

/-- GCM authentication tag of one `encrypt` call. -/
def gcmTag (algorithm : SymmetricEncryptionAlgorithm) (key : SymmetricKey)
    (plainText : Str) (entropy : Nat → Nat) : List Nat :=
  mkTag key.rawKey (encIv algorithm entropy) (gcmCt algorithm key plainText entropy)

/-- The result object of a successful GCM `encrypt` call. -/
def gcmObj (algorithm : SymmetricEncryptionAlgorithm) (key : SymmetricKey)
    (plainText : Str) (entropy : Nat → Nat) : EncryptionDataObject :=
  { algorithm := algorithm, iv := encIv algorithm entropy,
    authTag := some (gcmTag algorithm key plainText entropy),
    ciphertext := gcmCt algorithm key plainText entropy,
    token := joinColon [algId algorithm, hexEncode (encIv algorithm entropy),
      hexEncode (gcmTag algorithm key plainText entropy),
      hexEncode (gcmCt algorithm key plainText entropy)] }

/-- CBC ciphertext of one `encrypt` call. -/
def cbcCt (algorithm : SymmetricEncryptionAlgorithm) (key : SymmetricKey)
    (plainText : Str) (entropy : Nat → Nat) : List Nat :=
  maskBytes key.rawKey (encIv algorithm entropy) 0 (pkcs7Pad (utf8Encode plainText))

/-- The result object of a successful CBC `encrypt` call. -/
def cbcObj (algorithm : SymmetricEncryptionAlgorithm) (key : SymmetricKey)
    (plainText : Str) (entropy : Nat → Nat) : EncryptionDataObject :=
  { algorithm := algorithm, iv := encIv algorithm entropy, authTag := none,
    ciphertext := cbcCt algorithm key plainText entropy,
    token := joinColon [algId algorithm, hexEncode (encIv algorithm entropy),
      hexEncode (cbcCt algorithm key plainText entropy)] }

theorem encrypt_eq_ok_gcm (algorithm : SymmetricEncryptionAlgorithm)
    (key : SymmetricKey) (plainText : Str) (entropy : Nat → Nat)
    (halg : isGcm algorithm = true) (hpt : plainText ≠ [])
    (hkey : key.rawKey.length * 8 = (symmetricAlgorithmConfig algorithm).keyLength) :
    encrypt algorithm key plainText entropy =
      .ok (gcmObj algorithm key plainText entropy) := by
  have hptlen : ¬ plainText.length = 0 := by
    simpa [List.length_eq_zero] using hpt
  have hkeq : ¬ key.rawKey.length * 8 ≠ (symmetricAlgorithmConfig algorithm).keyLength := by
    simp [hkey]
  have htagne : gcmTag algorithm key plainText entropy ≠ [] := mkTag_ne_nil _ _ _
  have htaglen : ¬ (gcmTag algorithm key plainText entropy).length = 0 := by
    simpa [List.length_eq_zero] using htagne
  unfold encrypt
  rw [if_neg hptlen, if_neg hkeq, halg]
  simp only [if_true, gcmEncryptBlock]
  rw [if_neg (by simpa [gcmTag, gcmCt, encIv, ivByteCount] using htaglen)]
  simp [gcmObj, gcmTag, gcmCt, encIv, ivByteCount]

theorem encrypt_eq_ok_cbc (algorithm : SymmetricEncryptionAlgorithm)
    (key : SymmetricKey) (plainText : Str) (entropy : Nat → Nat)
    (halg : isGcm algorithm = false) (hpt : plainText ≠ [])
    (hkey : key.rawKey.length * 8 = (symmetricAlgorithmConfig algorithm).keyLength) :
    encrypt algorithm key plainText entropy =
      .ok (cbcObj algorithm key plainText entropy) := by
  have hptlen : ¬ plainText.length = 0 := by
    simpa [List.length_eq_zero] using hpt
  have hkeq : ¬ key.rawKey.length * 8 ≠ (symmetricAlgorithmConfig algorithm).keyLength := by
    simp [hkey]
  have hctne : cbcCt algorithm key plainText entropy ≠ [] := by
    unfold cbcCt
    intro hcontra
    have := maskBytes_length key.rawKey (encIv algorithm entropy) 0 (pkcs7Pad (utf8Encode plainText))
    rw [hcontra] at this
    have hpadne := pkcs7Pad_ne_nil (utf8Encode plainText)
    have : (pkcs7Pad (utf8Encode plainText)).length = 0 := by simpa using this.symm
    rw [List.length_eq_zero] at this
    exact hpadne this
  have hctlen : ¬ (cbcCt algorithm key plainText entropy).length = 0 := by
    simpa [List.length_eq_zero] using hctne
  unfold encrypt
  rw [if_neg hptlen, if_neg hkeq, halg]
  simp only [Bool.false_eq_true, if_false, cbcEncryptBlock]
  rw [if_neg (by simpa [cbcCt, encIv, ivByteCount] using hctlen)]
  simp [cbcObj, cbcCt, encIv, ivByteCount]

theorem ivByteCount_gcm (alg : SymmetricEncryptionAlgorithm) (halg : isGcm alg = true) :
    ivByteCount alg = 11 := by
  cases alg <;> first
    | rfl
    | exact absurd halg (by decide)

theorem ivByteCount_cbc (alg : SymmetricEncryptionAlgorithm) (halg : isGcm alg = false) :
    ivByteCount alg = 16 := by
  cases alg <;> first
    | rfl
    | exact absurd halg (by decide)

theorem encIv_ne_nil (alg : SymmetricEncryptionAlgorithm) (entropy : Nat → Nat) :
    encIv alg entropy ≠ [] := by
  have hlen : (encIv alg entropy).length = ivByteCount alg :=
    randomBytes_length _ _
  have hpos : 0 < ivByteCount alg := by
    cases alg <;> simp [ivByteCount, symmetricAlgorithmConfig]
  intro hcontra
  rw [hcontra] at hlen
  simp at hlen
  omega

theorem encIv_lt (alg : SymmetricEncryptionAlgorithm) (entropy : Nat → Nat) :
    ∀ b ∈ encIv alg entropy, b < 256 := randomBytes_lt _ _

theorem gcmCt_ne_nil (algorithm : SymmetricEncryptionAlgorithm) (key : SymmetricKey)
    (plainText : Str) (entropy : Nat → Nat) (hpt : plainText ≠ []) :
    gcmCt algorithm key plainText entropy ≠ [] := by
  unfold gcmCt
  intro hcontra
  have hlen := maskBytes_length key.rawKey (encIv algorithm entropy) 0 (utf8Encode plainText)
  rw [hcontra] at hlen
  have : (utf8Encode plainText).length = 0 := by simpa using hlen.symm
  rw [List.length_eq_zero] at this
  exact utf8Encode_ne_nil plainText hpt this

theorem gcmCt_lt (algorithm : SymmetricEncryptionAlgorithm) (key : SymmetricKey)
    (plainText : Str) (entropy : Nat → Nat) :
    ∀ b ∈ gcmCt algorithm key plainText entropy, b < 256 :=
  maskBytes_lt _ _ _ _ (utf8Encode_lt plainText)

theorem cbcCt_ne_nil (algorithm : SymmetricEncryptionAlgorithm) (key : SymmetricKey)
    (plainText : Str) (entropy : Nat → Nat) :
    cbcCt algorithm key plainText entropy ≠ [] := by
  unfold cbcCt
  intro hcontra
  have hlen := maskBytes_length key.rawKey (encIv algorithm entropy) 0
    (pkcs7Pad (utf8Encode plainText))
  rw [hcontra] at hlen
  have : (pkcs7Pad (utf8Encode plainText)).length = 0 := by simpa using hlen.symm
  rw [List.length_eq_zero] at this
  exact pkcs7Pad_ne_nil (utf8Encode plainText) this

theorem cbcCt_lt (algorithm : SymmetricEncryptionAlgorithm) (key : SymmetricKey)
    (plainText : Str) (entropy : Nat → Nat) :
    ∀ b ∈ cbcCt algorithm key plainText entropy, b < 256 :=
  maskBytes_lt _ _ _ _ (pkcs7Pad_lt _ (utf8Encode_lt plainText))

theorem parseToken_gcm_fields (alg : SymmetricEncryptionAlgorithm)
    (halg : isGcm alg = true) (f1 f2 f3 : Str) (token : Str)
    (htok : splitOnColon token = [algId alg, f1, f2, f3]) :
    parseToken token = parseTokenForAesGcm alg f1 f2 f3 token := by
  cases alg with
  | aes256gcm => simp [parseToken, htok, List.getD_cons_zero, List.getD_cons_succ]
  | aes128gcm =>
    simp [parseToken, htok, List.getD_cons_zero, List.getD_cons_succ]
    rw [if_neg (by decide)]
  | aes192gcm =>
    simp [parseToken, htok, List.getD_cons_zero, List.getD_cons_succ]
    rw [if_neg (by decide), if_neg (by decide)]
  | aes128cbc => exact absurd halg (by decide)
  | aes192cbc => exact absurd halg (by decide)
  | aes256cbc => exact absurd halg (by decide)

theorem parseToken_cbc_fields (alg : SymmetricEncryptionAlgorithm)
    (halg : isGcm alg = false) (f1 f2 : Str) (token : Str)
    (htok : splitOnColon token = [algId alg, f1, f2]) :
    parseToken token = parseTokenForAesCbc alg f1 f2 token := by
  cases alg with
  | aes256cbc => simp [parseToken, htok, List.getD_cons_zero, List.getD_cons_succ]
  | aes128cbc =>
    simp [parseToken, htok, List.getD_cons_zero, List.getD_cons_succ]
    rw [if_neg (by decide)]
  | aes192cbc =>
    simp [parseToken, htok, List.getD_cons_zero, List.getD_cons_succ]
    rw [if_neg (by decide), if_neg (by decide)]
  | aes128gcm => exact absurd halg (by decide)
  | aes192gcm => exact absurd halg (by decide)
  | aes256gcm => exact absurd halg (by decide)

theorem splitOnColon_gcmObj_token (algorithm : SymmetricEncryptionAlgorithm)
    (key : SymmetricKey) (plainText : Str) (entropy : Nat → Nat) :
    splitOnColon (gcmObj algorithm key plainText entropy).token =
      [algId algorithm, hexEncode (encIv algorithm entropy),
        hexEncode (gcmTag algorithm key plainText entropy),
        hexEncode (gcmCt algorithm key plainText entropy)] := by
  apply splitOnColon_joinColon
  · simp
  · intro p hp
    simp only [List.mem_cons, List.not_mem_nil, or_false] at hp
    rcases hp with rfl | rfl | rfl | rfl
    · exact algId_no_colon algorithm
    · exact colon_not_mem_hexEncode _ (encIv_lt algorithm entropy)
    · exact colon_not_mem_hexEncode _ (mkTag_lt _ _ _)
    · exact colon_not_mem_hexEncode _ (gcmCt_lt algorithm key plainText entropy)

theorem splitOnColon_cbcObj_token (algorithm : SymmetricEncryptionAlgorithm)
    (key : SymmetricKey) (plainText : Str) (entropy : Nat → Nat) :
    splitOnColon (cbcObj algorithm key plainText entropy).token =
      [algId algorithm, hexEncode (encIv algorithm entropy),
        hexEncode (cbcCt algorithm key plainText entropy)] := by
  apply splitOnColon_joinColon
  · simp
  · intro p hp
    simp only [List.mem_cons, List.not_mem_nil, or_false] at hp
    rcases hp with rfl | rfl | rfl
    · exact algId_no_colon algorithm
    · exact colon_not_mem_hexEncode _ (encIv_lt algorithm entropy)
    · exact colon_not_mem_hexEncode _ (cbcCt_lt algorithm key plainText entropy)

theorem parseTokenForAesGcm_hex (alg : SymmetricEncryptionAlgorithm)
    (iv tag ct : List Nat) (token : Str)
    (hiv : iv ≠ []) (htag : tag ≠ []) (hct : ct ≠ [])
    (hivb : ∀ b ∈ iv, b < 256) (htagb : ∀ b ∈ tag, b < 256) (hctb : ∀ b ∈ ct, b < 256) :
    parseTokenForAesGcm alg (hexEncode iv) (hexEncode tag) (hexEncode ct) token =
      .ok { algorithm := alg, iv := iv, authTag := some tag, ciphertext := ct,
            token := token } := by
  unfold parseTokenForAesGcm
  rw [if_neg]
  · rw [hexDecode_hexEncode iv hivb, hexDecode_hexEncode tag htagb,
      hexDecode_hexEncode ct hctb]
  · simp [isEmpty_eq_false_of_ne_nil (hexEncode_ne_nil _ hiv),
      isEmpty_eq_false_of_ne_nil (hexEncode_ne_nil _ htag),
      isEmpty_eq_false_of_ne_nil (hexEncode_ne_nil _ hct),
      isValidHex_hexEncode iv hiv hivb, isValidHex_hexEncode tag htag htagb,
      isValidHex_hexEncode ct hct hctb]

theorem parseTokenForAesCbc_hex (alg : SymmetricEncryptionAlgorithm)
    (iv ct : List Nat) (token : Str)
    (hiv : iv ≠ []) (hct : ct ≠ [])
    (hivb : ∀ b ∈ iv, b < 256) (hctb : ∀ b ∈ ct, b < 256) :
    parseTokenForAesCbc alg (hexEncode iv) (hexEncode ct) token =
      .ok { algorithm := alg, iv := iv, authTag := none, ciphertext := ct,
            token := token } := by
  unfold parseTokenForAesCbc
  rw [if_neg]
  · rw [hexDecode_hexEncode iv hivb, hexDecode_hexEncode ct hctb]
  · simp [isEmpty_eq_false_of_ne_nil (hexEncode_ne_nil _ hiv),
      isEmpty_eq_false_of_ne_nil (hexEncode_ne_nil _ hct),
      isValidHex_hexEncode iv hiv hivb, isValidHex_hexEncode ct hct hctb]

theorem parseToken_gcmObj (algorithm : SymmetricEncryptionAlgorithm)
    (key : SymmetricKey) (plainText : Str) (entropy : Nat → Nat)
    (halg : isGcm algorithm = true) (hpt : plainText ≠ []) :
    parseToken (gcmObj algorithm key plainText entropy).token =
      .ok (gcmObj algorithm key plainText entropy) := by
  rw [parseToken_gcm_fields algorithm halg _ _ _ _
    (splitOnColon_gcmObj_token algorithm key plainText entropy)]
  rw [parseTokenForAesGcm_hex algorithm (encIv algorithm entropy)
    (gcmTag algorithm key plainText entropy) (gcmCt algorithm key plainText entropy)
    (gcmObj algorithm key plainText entropy).token
    (encIv_ne_nil algorithm entropy) (mkTag_ne_nil _ _ _)
    (gcmCt_ne_nil algorithm key plainText entropy hpt)
    (encIv_lt algorithm entropy) (mkTag_lt _ _ _)
    (gcmCt_lt algorithm key plainText entropy)]
  rfl

theorem parseToken_cbcObj (algorithm : SymmetricEncryptionAlgorithm)
    (key : SymmetricKey) (plainText : Str) (entropy : Nat → Nat)
    (halg : isGcm algorithm = false) :
    parseToken (cbcObj algorithm key plainText entropy).token =
      .ok (cbcObj algorithm key plainText entropy) := by
  rw [parseToken_cbc_fields algorithm halg _ _ _
    (splitOnColon_cbcObj_token algorithm key plainText entropy)]
  rw [parseTokenForAesCbc_hex algorithm (encIv algorithm entropy)
    (cbcCt algorithm key plainText entropy)
    (cbcObj algorithm key plainText entropy).token
    (encIv_ne_nil algorithm entropy)
    (cbcCt_ne_nil algorithm key plainText entropy)
    (encIv_lt algorithm entropy)
    (cbcCt_lt algorithm key plainText entropy)]
  rfl

theorem decrypt_gcmObj (algorithm : SymmetricEncryptionAlgorithm)
    (key : SymmetricKey) (plainText : Str) (entropy : Nat → Nat)
    (halg : isGcm algorithm = true) (hpt : plainText ≠ [])
    (hkey : key.rawKey.length * 8 = (symmetricAlgorithmConfig algorithm).keyLength) :
    decrypt (gcmObj algorithm key plainText entropy).token key = .ok plainText := by
  unfold decrypt
  rw [parseToken_gcmObj algorithm key plainText entropy halg hpt]
  simp only [gcmObj]
  rw [if_neg (by simp [hkey])]
  simp only [halg, if_true, Option.getD_some, gcmDecryptBlock, gcmTag]
  simp only [gcmCt, maskBytes_maskBytes]
  rw [if_neg (by simpa [List.length_eq_zero] using utf8Encode_ne_nil plainText hpt)]
  rw [utf8Decode_utf8Encode]

theorem decrypt_cbcObj (algorithm : SymmetricEncryptionAlgorithm)
    (key : SymmetricKey) (plainText : Str) (entropy : Nat → Nat)
    (halg : isGcm algorithm = false) (hpt : plainText ≠ [])
    (hkey : key.rawKey.length * 8 = (symmetricAlgorithmConfig algorithm).keyLength) :
    decrypt (cbcObj algorithm key plainText entropy).token key = .ok plainText := by
  unfold decrypt
  rw [parseToken_cbcObj algorithm key plainText entropy halg]
  simp only [cbcObj]
  rw [if_neg (by simp [hkey])]
  simp only [halg, Bool.false_eq_true, if_false, cbcDecryptBlock, cbcCt,
    maskBytes_maskBytes, pkcs7Unpad_pkcs7Pad]
  rw [if_neg (by simpa [List.length_eq_zero] using utf8Encode_ne_nil plainText hpt)]
  rw [utf8Decode_utf8Encode]

/-! ## Further shared lemmas for the claims -/

theorem encrypt_ok_inversion (algorithm : SymmetricEncryptionAlgorithm)
    (key : SymmetricKey) (plainText : Str) (entropy : Nat → Nat)
    (obj : EncryptionDataObject)
    (h : encrypt algorithm key plainText entropy = .ok obj) :
    plainText ≠ [] ∧
      key.rawKey.length * 8 = (symmetricAlgorithmConfig algorithm).keyLength := by
  by_cases hpt : plainText = []
  · subst hpt
    exact absurd h (by simp [encrypt])
  · by_cases hkey : key.rawKey.length * 8 = (symmetricAlgorithmConfig algorithm).keyLength
    · exact ⟨hpt, hkey⟩
    · unfold encrypt at h
      rw [if_neg (by simpa [List.length_eq_zero] using hpt), if_pos hkey] at h
      exact absurd h (by simp)

theorem ne_nil_of_isValidHex {s : Str} (h : isValidHex s = true) : s ≠ [] := by
  unfold isValidHex at h
  intro hcontra
  subst hcontra
  simp at h

theorem no_colon_of_isValidHex {s : Str} (h : isValidHex s = true) : ':' ∉ s := by
  unfold isValidHex at h
  intro hmem
  have hall := (Bool.and_eq_true _ _ |>.mp h).2
  rw [List.all_eq_true] at hall
  have := hall ':' hmem
  simp [hexDigitVal] at this

theorem parseTokenForAesGcm_valid (alg : SymmetricEncryptionAlgorithm)
    (f1 f2 f3 token : Str) (h1 : isValidHex f1 = true) (h2 : isValidHex f2 = true)
    (h3 : isValidHex f3 = true) :
    parseTokenForAesGcm alg f1 f2 f3 token =
      .ok { algorithm := alg, iv := hexDecode f1, authTag := some (hexDecode f2),
            ciphertext := hexDecode f3, token := token } := by
  unfold parseTokenForAesGcm
  rw [if_neg]
  simp [isEmpty_eq_false_of_ne_nil (ne_nil_of_isValidHex h1),
    isEmpty_eq_false_of_ne_nil (ne_nil_of_isValidHex h2),
    isEmpty_eq_false_of_ne_nil (ne_nil_of_isValidHex h3), h1, h2, h3]

theorem isLowerHexDigitChar : ∀ n < 16,
    (48 ≤ (hexDigitChar n).toNat ∧ (hexDigitChar n).toNat ≤ 57) ∨
    (97 ≤ (hexDigitChar n).toNat ∧ (hexDigitChar n).toNat ≤ 102) := by
  decide

/-- One character of the `[0-9a-f]` regex character class. -/
def isLowerHexDigit (c : Char) : Bool :=
  (48 ≤ c.toNat && c.toNat ≤ 57) || (97 ≤ c.toNat && c.toNat ≤ 102)

theorem all_isLowerHexDigit_hexEncode (bs : List Nat) (hb : ∀ b ∈ bs, b < 256) :
    (hexEncode bs).all isLowerHexDigit = true := by
  rw [List.all_eq_true]
  intro c hc
  obtain ⟨n, hn, rfl⟩ := mem_hexEncode_is_hex_digit bs hb c hc
  have := isLowerHexDigitChar n hn
  simp only [isLowerHexDigit, Bool.or_eq_true, Bool.and_eq_true, decide_eq_true_eq]
  omega

/-- The shape `^<id>:[0-9a-f]+:[0-9a-f]+:[0-9a-f]+$` of a 4-field token. -/
def matchesGcmTokenShape (alg : SymmetricEncryptionAlgorithm) (s : Str) : Bool :=
  match splitOnColon s with
  | [a, f1, f2, f3] =>
    decide (a = algId alg) && !f1.isEmpty && f1.all isLowerHexDigit
      && !f2.isEmpty && f2.all isLowerHexDigit
      && !f3.isEmpty && f3.all isLowerHexDigit
  | _ => false

/-- The shape `^<id>:[0-9a-f]+:[0-9a-f]+$` of a 3-field token. -/
def matchesCbcTokenShape (alg : SymmetricEncryptionAlgorithm) (s : Str) : Bool :=
  match splitOnColon s with
  | [a, f1, f2] =>
    decide (a = algId alg) && !f1.isEmpty && f1.all isLowerHexDigit
      && !f2.isEmpty && f2.all isLowerHexDigit
  | _ => false

/-- Number of fields in the descriptor's `fieldOrder`
(`tokenFormat.split(':')`, as the tampering tests compute it). -/
def fieldOrderLength (alg : SymmetricEncryptionAlgorithm) : Nat :=
  (splitOnColon (symmetricAlgorithmConfig alg).tokenFormat).length

/-- Round-trip helper shared by several claims: a successful `encrypt`
yields a token that `decrypt` (same key) maps back to the plaintext. -/
theorem decrypt_encrypt_ok (algorithm : SymmetricEncryptionAlgorithm)
    (key : SymmetricKey) (plainText : Str) (entropy : Nat → Nat)
    (hkey : key.rawKey.length * 8 = (symmetricAlgorithmConfig algorithm).keyLength)
    (hpt : plainText ≠ []) (obj : EncryptionDataObject)
    (henc : encrypt algorithm key plainText entropy = .ok obj) :
    decrypt obj.token key = .ok plainText := by
  cases halg : isGcm algorithm with
  | true =>
    rw [encrypt_eq_ok_gcm algorithm key plainText entropy halg hpt hkey] at henc
    injection henc with henc
    subst henc
    exact decrypt_gcmObj algorithm key plainText entropy halg hpt hkey
  | false =>
    rw [encrypt_eq_ok_cbc algorithm key plainText entropy halg hpt hkey] at henc
    injection henc with henc
    subst henc
    exact decrypt_cbcObj algorithm key plainText entropy halg hpt hkey

/-! ## Claims -/

/-- C1: for every supported algorithm, every `SymmetricKey` whose raw
bit length equals that algorithm's required key length, and every
non-empty UTF-8 plaintext, `decrypt` applied with the same key to the
token returned by a successful `encrypt` returns `Ok` of exactly the
original plaintext. -/
theorem C1_roundtrip (algorithm : SymmetricEncryptionAlgorithm)
    (key : SymmetricKey) (plainText : Str) (entropy : Nat → Nat)
    (hkey : key.rawKey.length * 8 = (symmetricAlgorithmConfig algorithm).keyLength)
    (hpt : plainText ≠ []) (obj : EncryptionDataObject)
    (henc : encrypt algorithm key plainText entropy = .ok obj) :
    decrypt obj.token key = .ok plainText :=
  decrypt_encrypt_ok algorithm key plainText entropy hkey hpt obj henc

def c1Key : SymmetricKey := ⟨List.replicate 16 7⟩

def c1Obj : EncryptionDataObject :=
  gcmObj .aes128gcm c1Key "hi".toList (fun _ => 0)

set_option maxRecDepth 10000 in
theorem C1_roundtrip_witness :
    c1Key.rawKey.length * 8 = (symmetricAlgorithmConfig .aes128gcm).keyLength ∧
    "hi".toList ≠ [] ∧
    encrypt .aes128gcm c1Key "hi".toList (fun _ => 0) = .ok c1Obj ∧
    decrypt c1Obj.token c1Key = .ok "hi".toList :=
  ⟨by decide, by decide, by decide,
    C1_roundtrip .aes128gcm c1Key "hi".toList (fun _ => 0) (by decide) (by decide)
      c1Obj (by decide)⟩

/-- C6: two `encrypt` invocations with identical algorithm, key and
plaintext whose drawn IVs differ return different tokens, and `decrypt`
with the same key maps both tokens back to the original plaintext. -/
theorem C6_fresh_iv_distinct_tokens (algorithm : SymmetricEncryptionAlgorithm)
    (key : SymmetricKey) (plainText : Str) (ent1 ent2 : Nat → Nat)
    (obj1 obj2 : EncryptionDataObject)
    (h1 : encrypt algorithm key plainText ent1 = .ok obj1)
    (h2 : encrypt algorithm key plainText ent2 = .ok obj2)
    (hiv : obj1.iv ≠ obj2.iv) :
    obj1.token ≠ obj2.token ∧ decrypt obj1.token key = .ok plainText ∧
      decrypt obj2.token key = .ok plainText := by
  obtain ⟨hpt, hkey⟩ := encrypt_ok_inversion algorithm key plainText ent1 obj1 h1
  refine ⟨?_, decrypt_encrypt_ok algorithm key plainText ent1 hkey hpt obj1 h1,
    decrypt_encrypt_ok algorithm key plainText ent2 hkey hpt obj2 h2⟩
  cases halg : isGcm algorithm with
  | true =>
    rw [encrypt_eq_ok_gcm algorithm key plainText ent1 halg hpt hkey] at h1
    rw [encrypt_eq_ok_gcm algorithm key plainText ent2 halg hpt hkey] at h2
    injection h1 with h1
    injection h2 with h2
    subst h1
    subst h2
    intro htok
    apply hiv
    have hsp := congrArg splitOnColon htok
    rw [splitOnColon_gcmObj_token, splitOnColon_gcmObj_token] at hsp
    injection hsp with hA hsp
    injection hsp with hIv hsp
    have := congrArg hexDecode hIv
    rw [hexDecode_hexEncode _ (encIv_lt algorithm ent1),
      hexDecode_hexEncode _ (encIv_lt algorithm ent2)] at this
    simpa [gcmObj] using this
  | false =>
    rw [encrypt_eq_ok_cbc algorithm key plainText ent1 halg hpt hkey] at h1
    rw [encrypt_eq_ok_cbc algorithm key plainText ent2 halg hpt hkey] at h2
    injection h1 with h1
    injection h2 with h2
    subst h1
    subst h2
    intro htok
    apply hiv
    have hsp := congrArg splitOnColon htok
    rw [splitOnColon_cbcObj_token, splitOnColon_cbcObj_token] at hsp
    injection hsp with hA hsp
    injection hsp with hIv hsp
    have := congrArg hexDecode hIv
    rw [hexDecode_hexEncode _ (encIv_lt algorithm ent1),
      hexDecode_hexEncode _ (encIv_lt algorithm ent2)] at this
    simpa [cbcObj] using this

def c6Key : SymmetricKey := ⟨List.replicate 32 9⟩

def c6Obj1 : EncryptionDataObject :=
  gcmObj .aes256gcm c6Key "hi".toList (fun _ => 0)

def c6Obj2 : EncryptionDataObject :=
  gcmObj .aes256gcm c6Key "hi".toList (fun _ => 1)

set_option maxRecDepth 10000 in
theorem C6_fresh_iv_distinct_tokens_witness :
    c6Obj1.iv ≠ c6Obj2.iv ∧ c6Obj1.token ≠ c6Obj2.token ∧
    decrypt c6Obj1.token c6Key = .ok "hi".toList ∧
    decrypt c6Obj2.token c6Key = .ok "hi".toList :=
  ⟨by decide,
    (C6_fresh_iv_distinct_tokens .aes256gcm c6Key "hi".toList (fun _ => 0) (fun _ => 1)
      c6Obj1 c6Obj2 (by decide) (by decide) (by decide)).1,
    (C6_fresh_iv_distinct_tokens .aes256gcm c6Key "hi".toList (fun _ => 0) (fun _ => 1)
      c6Obj1 c6Obj2 (by decide) (by decide) (by decide)).2.1,
    (C6_fresh_iv_distinct_tokens .aes256gcm c6Key "hi".toList (fun _ => 0) (fun _ => 1)
      c6Obj1 c6Obj2 (by decide) (by decide) (by decide)).2.2⟩

/-- C7: `encrypt` fails with the empty-plaintext error on empty input;
on non-empty input with a key whose bit length differs from the
algorithm's required length it fails with `AlgorithmKeyMismatch`
carrying the expected and the provided lengths; and it succeeds only
when both preconditions hold. -/
theorem C7_encrypt_preconditions (algorithm : SymmetricEncryptionAlgorithm)
    (key : SymmetricKey) (plainText : Str) (entropy : Nat → Nat) :
    (plainText = [] → encrypt algorithm key plainText entropy = .err .emptyPlaintext) ∧
    (plainText ≠ [] →
      key.rawKey.length * 8 ≠ (symmetricAlgorithmConfig algorithm).keyLength →
      encrypt algorithm key plainText entropy =
        .err (.algorithmKeyMismatch (symmetricAlgorithmConfig algorithm).keyLength
          (key.rawKey.length * 8) algorithm)) ∧
    (∀ obj, encrypt algorithm key plainText entropy = .ok obj →
      plainText ≠ [] ∧
        key.rawKey.length * 8 = (symmetricAlgorithmConfig algorithm).keyLength) := by
  refine ⟨?_, ?_, ?_⟩
  · intro hpt
    subst hpt
    rfl
  · intro hpt hmis
    unfold encrypt
    rw [if_neg (by simpa [List.length_eq_zero] using hpt), if_pos hmis]
  · intro obj hobj
    exact encrypt_ok_inversion algorithm key plainText entropy obj hobj

theorem C7_encrypt_preconditions_witness :
    encrypt .aes256gcm ⟨List.replicate 32 0⟩ [] (fun _ => 0) = .err .emptyPlaintext ∧
    encrypt .aes256gcm ⟨List.replicate 16 0⟩ "a".toList (fun _ => 0) =
      .err (.algorithmKeyMismatch 256 128 .aes256gcm) :=
  ⟨(C7_encrypt_preconditions .aes256gcm ⟨List.replicate 32 0⟩ [] (fun _ => 0)).1 rfl,
   (C7_encrypt_preconditions .aes256gcm ⟨List.replicate 16 0⟩ "a".toList (fun _ => 0)).2.1
     (by decide) (by decide)⟩

/-- C8: every `SymmetricKey` produced by either construction path
(`generate`, `fromString`) has a raw byte length whose bit count is one
of 128, 192 or 256; any other length yields an error instead of a key. -/
theorem C8_key_invariant :
    (∀ (lengthInBits : Nat) (entropy : Nat → Nat) (k : SymmetricKey),
      SymmetricKey.generate lengthInBits entropy = .ok k →
        k.rawKey.length * 8 = 128 ∨ k.rawKey.length * 8 = 192 ∨
          k.rawKey.length * 8 = 256) ∧
    (∀ (str : Str) (k : SymmetricKey),
      SymmetricKey.fromString str = .ok k →
        k.rawKey.length * 8 = 128 ∨ k.rawKey.length * 8 = 192 ∨
          k.rawKey.length * 8 = 256) := by
  constructor
  · intro lengthInBits entropy k hk
    simp only [SymmetricKey.generate] at hk
    split at hk
    next hmem =>
      injection hk with hk
      subst hk
      have := by simpa [supportedSymmetricKeyLengths, symmetricAlgorithmConfig] using hmem
      tauto
    next => exact absurd hk (by simp)
  · intro str k hk
    simp only [SymmetricKey.fromString] at hk
    split at hk
    next hmem =>
      injection hk with hk
      subst hk
      have := by simpa [supportedSymmetricKeyLengths, symmetricAlgorithmConfig] using hmem
      tauto
    next => exact absurd hk (by simp)

theorem C8_key_invariant_witness :
    (⟨List.replicate 32 (0 : Nat)⟩ : SymmetricKey).rawKey.length * 8 = 128 ∨
    (⟨List.replicate 32 (0 : Nat)⟩ : SymmetricKey).rawKey.length * 8 = 192 ∨
    (⟨List.replicate 32 (0 : Nat)⟩ : SymmetricKey).rawKey.length * 8 = 256 :=
  C8_key_invariant.1 256 (fun _ => 0) ⟨List.replicate 32 0⟩ (by decide)

/-- C10: inside `encrypt` the empty-plaintext check strictly precedes
the key-length check: with an empty plaintext the result is the
empty-plaintext error even when the key also mismatches, and an
`AlgorithmKeyMismatch` error is only possible for non-empty plaintext. -/
theorem C10_empty_check_precedes_key_check
    (algorithm : SymmetricEncryptionAlgorithm) (key : SymmetricKey)
    (entropy : Nat → Nat) :
    (∀ plainText : Str, plainText = [] →
      key.rawKey.length * 8 ≠ (symmetricAlgorithmConfig algorithm).keyLength →
      encrypt algorithm key plainText entropy = .err .emptyPlaintext) ∧
    (∀ (plainText : Str) (expectedBits providedBits : Nat),
      encrypt algorithm key plainText entropy =
        .err (.algorithmKeyMismatch expectedBits providedBits algorithm) →
      plainText ≠ []) := by
  constructor
  · intro plainText hpt hmis
    subst hpt
    rfl
  · intro plainText expectedBits providedBits henc hpt
    subst hpt
    have : encrypt algorithm key [] entropy = .err .emptyPlaintext := rfl
    rw [this] at henc
    exact absurd henc (by simp)

theorem C10_empty_check_precedes_key_check_witness :
    (⟨List.replicate 16 (0 : Nat)⟩ : SymmetricKey).rawKey.length * 8 ≠
      (symmetricAlgorithmConfig .aes256gcm).keyLength ∧
    encrypt .aes256gcm ⟨List.replicate 16 0⟩ [] (fun _ => 0) = .err .emptyPlaintext :=
  ⟨by decide,
   (C10_empty_check_precedes_key_check .aes256gcm ⟨List.replicate 16 0⟩ (fun _ => 0)).1
     [] rfl (by decide)⟩

def c3Key : SymmetricKey := ⟨List.replicate 32 0⟩

def c3Result : Result EncryptionDataObject EncError :=
  encrypt .aes256gcm c3Key "a".toList (fun _ => 0)

def c3IvBitLength : Nat :=
  match c3Result with
  | .ok obj => obj.iv.length * 8
  | .err _ => 0

/-- C3 counterexample: a successful `aes-256-gcm` `encrypt` draws an IV
of 88 bits (11 bytes), not the 92 bits the claim states — `92 / 8`
truncates to 11 on the Node side, exactly as in the 22-hex-digit IV of
the token in the repository's own `decrypt` docstring example. -/
theorem C3_counterexample : c3Result.isOk = true ∧ c3IvBitLength = 88 ∧
    c3IvBitLength ≠ 92 := by
  decide

/-- C3 (amended): each successful `encrypt` draws one IV of
`ivLength / 8` bytes (truncating division) — 11 bytes = 88 bits for the
GCM algorithms (whose descriptor says 92 bits), 16 bytes = 128 bits for
the CBC algorithms — and this IV is the value hex-encoded into the
token's second field. -/
theorem C3_iv_length (algorithm : SymmetricEncryptionAlgorithm)
    (key : SymmetricKey) (plainText : Str) (entropy : Nat → Nat)
    (obj : EncryptionDataObject)
    (henc : encrypt algorithm key plainText entropy = .ok obj) :
    obj.iv.length = (symmetricAlgorithmConfig algorithm).ivLength / 8 ∧
    (isGcm algorithm = true → obj.iv.length = 11) ∧
    (isGcm algorithm = false → obj.iv.length = 16) ∧
    (splitOnColon obj.token).getD 1 [] = hexEncode obj.iv := by
  obtain ⟨hpt, hkey⟩ := encrypt_ok_inversion algorithm key plainText entropy obj henc
  cases halg : isGcm algorithm with
  | true =>
    rw [encrypt_eq_ok_gcm algorithm key plainText entropy halg hpt hkey] at henc
    injection henc with henc
    subst henc
    refine ⟨randomBytes_length _ _, ?_, ?_, ?_⟩
    · intro _
      have h := randomBytes_length (ivByteCount algorithm) entropy
      simpa [gcmObj, encIv, ivByteCount_gcm algorithm halg] using
        (ivByteCount_gcm algorithm halg ▸ h)
    · intro hcontra
      exact absurd hcontra (by simp)
    · rw [splitOnColon_gcmObj_token]
      rfl
  | false =>
    rw [encrypt_eq_ok_cbc algorithm key plainText entropy halg hpt hkey] at henc
    injection henc with henc
    subst henc
    refine ⟨randomBytes_length _ _, ?_, ?_, ?_⟩
    · intro hcontra
      exact absurd hcontra (by simp)
    · intro _
      have h := randomBytes_length (ivByteCount algorithm) entropy
      simpa [cbcObj, encIv, ivByteCount_cbc algorithm halg] using
        (ivByteCount_cbc algorithm halg ▸ h)
    · rw [splitOnColon_cbcObj_token]
      rfl

set_option maxRecDepth 10000 in
theorem C3_iv_length_witness :
    (gcmObj .aes256gcm c3Key "a".toList (fun _ => 0)).iv.length = 11 ∧
    (gcmObj .aes256gcm c3Key "a".toList (fun _ => 0)).iv.length =
      (symmetricAlgorithmConfig .aes256gcm).ivLength / 8 :=
  ⟨(C3_iv_length .aes256gcm c3Key "a".toList (fun _ => 0)
      (gcmObj .aes256gcm c3Key "a".toList (fun _ => 0)) (by decide)).2.1 rfl,
   (C3_iv_length .aes256gcm c3Key "a".toList (fun _ => 0)
      (gcmObj .aes256gcm c3Key "a".toList (fun _ => 0)) (by decide)).1⟩

def c4Key : SymmetricKey := ⟨List.replicate 32 0⟩

/-- C4 counterexample: a token whose first field is the recognized
identifier `aes-256-gcm` but which has 3 fields instead of 4 makes
`decrypt` fail with `UnsupportedOrInvalidAlgorithm` (the `else` branch
of `parseToken`), not with the `InvalidToken` kind the claim states. -/
theorem C4_counterexample :
    decrypt "aes-256-gcm:aa:bb".toList c4Key =
      .err (.unsupportedOrInvalidAlgorithm "aes-256-gcm".toList) ∧
    decrypt "aes-256-gcm:aa:bb".toList c4Key ≠ .err .invalidToken := by
  decide

/-- C4 (amended): for every token whose first colon-separated field is
one of the six supported identifiers but whose field count differs from
that algorithm's `fieldOrder` length (4 for GCM, 3 for CBC), `decrypt`
fails with `UnsupportedOrInvalidAlgorithm` carrying the identifier —
the same kind as for an unknown algorithm, never `InvalidToken` and
never a plaintext. -/
theorem C4_field_count_mismatch (token : Str) (key : SymmetricKey)
    (alg : SymmetricEncryptionAlgorithm)
    (hfirst : (splitOnColon token).getD 0 [] = algId alg)
    (hcount : (splitOnColon token).length ≠ fieldOrderLength alg) :
    decrypt token key = .err (.unsupportedOrInvalidAlgorithm (algId alg)) := by
  have hparse : parseToken token = .err (.unsupportedOrInvalidAlgorithm (algId alg)) := by
    simp only [parseToken, hfirst]
    cases alg with
    | aes128gcm =>
      have h4 : fieldOrderLength aes128gcm = 4 := rfl
      rw [if_neg (fun hcond => hcount (by rw [h4]; exact hcond.2))]
      rw [if_neg (fun hcond => by rcases hcond.1 with h | h | h <;> exact absurd h (by decide))]
    | aes192gcm =>
      have h4 : fieldOrderLength aes192gcm = 4 := rfl
      rw [if_neg (fun hcond => hcount (by rw [h4]; exact hcond.2))]
      rw [if_neg (fun hcond => by rcases hcond.1 with h | h | h <;> exact absurd h (by decide))]
    | aes256gcm =>
      have h4 : fieldOrderLength aes256gcm = 4 := rfl
      rw [if_neg (fun hcond => hcount (by rw [h4]; exact hcond.2))]
      rw [if_neg (fun hcond => by rcases hcond.1 with h | h | h <;> exact absurd h (by decide))]
    | aes128cbc =>
      have h3 : fieldOrderLength aes128cbc = 3 := rfl
      rw [if_neg (fun hcond => by rcases hcond.1 with h | h | h <;> exact absurd h (by decide))]
      rw [if_neg (fun hcond => hcount (by rw [h3]; exact hcond.2))]
    | aes192cbc =>
      have h3 : fieldOrderLength aes192cbc = 3 := rfl
      rw [if_neg (fun hcond => by rcases hcond.1 with h | h | h <;> exact absurd h (by decide))]
      rw [if_neg (fun hcond => hcount (by rw [h3]; exact hcond.2))]
    | aes256cbc =>
      have h3 : fieldOrderLength aes256cbc = 3 := rfl
      rw [if_neg (fun hcond => by rcases hcond.1 with h | h | h <;> exact absurd h (by decide))]
      rw [if_neg (fun hcond => hcount (by rw [h3]; exact hcond.2))]
  unfold decrypt
  rw [hparse]

theorem C4_field_count_mismatch_witness :
    decrypt "aes-128-cbc:aa:bb:cc:dd".toList c4Key =
      .err (.unsupportedOrInvalidAlgorithm "aes-128-cbc".toList) :=
  C4_field_count_mismatch "aes-128-cbc:aa:bb:cc:dd".toList c4Key .aes128cbc
    (by decide) (by decide)

def c5LongInvalidHex : Str :=
  "0123456789abcdef0123456789abcdef0123456789abcdef0123456789abcdefzz".toList

/-- C5 counterexample: `fromString` on the non-hex string `"zz"` fails
with `InvalidKeyLength` (the decoded prefix is empty, 0 bits), not with
the `InvalidEncoding` kind the claim states; and a non-hex string whose
longest valid hex prefix decodes to 32 bytes even succeeds. -/
theorem C5_counterexample :
    SymmetricKey.fromString "zz".toList =
      .err (.invalidKeyLength 0 supportedSymmetricKeyLengths) ∧
    SymmetricKey.fromString "zz".toList ≠ .err .invalidEncoding ∧
    (SymmetricKey.fromString c5LongInvalidHex).isOk = true := by
  decide

/-- C5 (amended): `Buffer.from(str, 'hex')` never throws, so
`fromString` has exactly one failure kind: every error it returns is
`InvalidKeyLength` carrying the bit length of the decoded longest valid
hex-pair prefix (never `InvalidEncoding`); a non-hex string whose valid
prefix decodes to a supported length even yields a key. -/
theorem C5_fromString_failure_kind (str : Str) (e : EncError)
    (h : SymmetricKey.fromString str = .err e) :
    e = .invalidKeyLength ((hexDecode str).length * 8) supportedSymmetricKeyLengths := by
  simp only [SymmetricKey.fromString] at h
  split at h
  · exact absurd h (by simp)
  · injection h with h
    exact h.symm

theorem C5_fromString_failure_kind_witness :
    (EncError.invalidKeyLength 0 supportedSymmetricKeyLengths) =
      .invalidKeyLength ((hexDecode "zz".toList).length * 8)
        supportedSymmetricKeyLengths :=
  C5_fromString_failure_kind "zz".toList
    (.invalidKeyLength 0 supportedSymmetricKeyLengths) (by decide)

/-- C9: every token returned by a successful `encrypt` is the literal
algorithm identifier followed by the remaining binary fields as
lowercase hex, joined with `:` in the descriptor's field order —
`algorithm:iv:authTag:ciphertext` for GCM, `algorithm:iv:ciphertext`
for CBC — and in particular matches the corresponding
`^<id>(:[0-9a-f]+)+$` shape. -/
theorem C9_token_format (algorithm : SymmetricEncryptionAlgorithm)
    (key : SymmetricKey) (plainText : Str) (entropy : Nat → Nat)
    (obj : EncryptionDataObject)
    (henc : encrypt algorithm key plainText entropy = .ok obj) :
    (isGcm algorithm = true →
      splitOnColon obj.token = [algId algorithm, hexEncode obj.iv,
        hexEncode (obj.authTag.getD []), hexEncode obj.ciphertext] ∧
      matchesGcmTokenShape algorithm obj.token = true) ∧
    (isGcm algorithm = false →
      splitOnColon obj.token =
        [algId algorithm, hexEncode obj.iv, hexEncode obj.ciphertext] ∧
      matchesCbcTokenShape algorithm obj.token = true) := by
  obtain ⟨hpt, hkey⟩ := encrypt_ok_inversion algorithm key plainText entropy obj henc
  cases halg : isGcm algorithm with
  | true =>
    rw [encrypt_eq_ok_gcm algorithm key plainText entropy halg hpt hkey] at henc
    injection henc with henc
    subst henc
    refine ⟨fun _ => ⟨?_, ?_⟩, fun hcontra => absurd hcontra (by simp)⟩
    · rw [splitOnColon_gcmObj_token]
      rfl
    · have hsplit := splitOnColon_gcmObj_token algorithm key plainText entropy
      have htagne : hexEncode (gcmTag algorithm key plainText entropy) ≠ [] :=
        hexEncode_ne_nil _ (mkTag_ne_nil _ _ _)
      have htagall : (hexEncode (gcmTag algorithm key plainText entropy)).all
          isLowerHexDigit = true :=
        all_isLowerHexDigit_hexEncode _ (mkTag_lt _ _ _)
      simp only [matchesGcmTokenShape, hsplit]
      simp [isEmpty_eq_false_of_ne_nil (hexEncode_ne_nil _ (encIv_ne_nil algorithm entropy)),
        isEmpty_eq_false_of_ne_nil htagne,
        isEmpty_eq_false_of_ne_nil (hexEncode_ne_nil _
          (gcmCt_ne_nil algorithm key plainText entropy hpt)),
        all_isLowerHexDigit_hexEncode _ (encIv_lt algorithm entropy),
        all_isLowerHexDigit_hexEncode _ (gcmCt_lt algorithm key plainText entropy)]
      exact List.all_eq_true.mp htagall
  | false =>
    rw [encrypt_eq_ok_cbc algorithm key plainText entropy halg hpt hkey] at henc
    injection henc with henc
    subst henc
    refine ⟨fun hcontra => absurd hcontra (by simp), fun _ => ⟨?_, ?_⟩⟩
    · rw [splitOnColon_cbcObj_token]
      rfl
    · have hsplit := splitOnColon_cbcObj_token algorithm key plainText entropy
      simp only [matchesCbcTokenShape, hsplit]
      simp [isEmpty_eq_false_of_ne_nil (hexEncode_ne_nil _ (encIv_ne_nil algorithm entropy)),
        isEmpty_eq_false_of_ne_nil (hexEncode_ne_nil _
          (cbcCt_ne_nil algorithm key plainText entropy)),
        all_isLowerHexDigit_hexEncode _ (encIv_lt algorithm entropy),
        all_isLowerHexDigit_hexEncode _ (cbcCt_lt algorithm key plainText entropy)]

def c9Key : SymmetricKey := ⟨List.replicate 32 3⟩

set_option maxRecDepth 10000 in
theorem C9_token_format_witness :
    matchesGcmTokenShape .aes256gcm
      (gcmObj .aes256gcm c9Key "DO NOT SHARE THIS SECRET".toList (fun _ => 5)).token
      = true :=
  ((C9_token_format .aes256gcm c9Key "DO NOT SHARE THIS SECRET".toList (fun _ => 5)
      (gcmObj .aes256gcm c9Key "DO NOT SHARE THIS SECRET".toList (fun _ => 5))
      (by decide)).1 rfl).2

/-- Unfolding of `decrypt` once the parse stage has succeeded. -/
theorem decrypt_of_parse_ok (token : Str) (key : SymmetricKey)
    (alg : SymmetricEncryptionAlgorithm) (iv ct : List Nat)
    (authTag : Option (List Nat))
    (h : parseToken token =
      .ok { algorithm := alg, iv := iv, token := token, ciphertext := ct,
            authTag := authTag }) :
    decrypt token key =
      if key.rawKey.length * 8 ≠ (symmetricAlgorithmConfig alg).keyLength then
        .err (.algorithmKeyMismatch (symmetricAlgorithmConfig alg).keyLength
          (key.rawKey.length * 8) alg)
      else
        match (if isGcm alg = true then
            gcmDecryptBlock key.rawKey iv ct (authTag.getD [])
          else cbcDecryptBlock key.rawKey iv ct) with
        | none => .err .decryptionFailed
        | some d => if d.length = 0 then .err .decryptionFailed
                    else .ok (utf8Decode d) := by
  unfold decrypt
  rw [h]

/-- `decrypt` on a well-formed 4-field GCM token with arbitrary
valid-hex fields reduces to the idealized AEAD `decryptBlock`. -/
theorem decrypt_gcm_valid_fields (alg : SymmetricEncryptionAlgorithm)
    (key : SymmetricKey) (ivF tagF ctF : Str) (halg : isGcm alg = true)
    (h1 : isValidHex ivF = true) (h2 : isValidHex tagF = true)
    (h3 : isValidHex ctF = true)
    (hkey : key.rawKey.length * 8 = (symmetricAlgorithmConfig alg).keyLength) :
    decrypt (joinColon [algId alg, ivF, tagF, ctF]) key =
      match gcmDecryptBlock key.rawKey (hexDecode ivF) (hexDecode ctF)
        (hexDecode tagF) with
      | none => .err .decryptionFailed
      | some d => if d.length = 0 then .err .decryptionFailed
                  else .ok (utf8Decode d) := by
  have hsplit : splitOnColon (joinColon [algId alg, ivF, tagF, ctF]) =
      [algId alg, ivF, tagF, ctF] := by
    apply splitOnColon_joinColon
    · simp
    · intro p hp
      simp only [List.mem_cons, List.not_mem_nil, or_false] at hp
      rcases hp with rfl | rfl | rfl | rfl
      · exact algId_no_colon alg
      · exact no_colon_of_isValidHex h1
      · exact no_colon_of_isValidHex h2
      · exact no_colon_of_isValidHex h3
  rw [decrypt_of_parse_ok _ key alg (hexDecode ivF) (hexDecode ctF)
    (some (hexDecode tagF))
    (by rw [parseToken_gcm_fields alg halg _ _ _ _ hsplit,
          parseTokenForAesGcm_valid alg ivF tagF ctF _ h1 h2 h3])]
  rw [if_neg (by simp [hkey])]
  simp only [halg, if_true, Option.getD_some]

/-- C2 (amended): for a token produced by a successful GCM `encrypt`,
replacing exactly one of the `iv`, `authTag` or `ciphertext` fields
with any valid hexadecimal string whose decoded bytes differ from the
original field's bytes makes `decrypt` (same key) fail with
`DecryptionFailed`; it never returns a plaintext.  (A replacement hex
string that decodes to the same bytes — an uppercase variant or one
with a dangling extra hex digit — is accepted and decrypts to the
original plaintext, which is what the counterexample exhibits.) -/
theorem C2_tamper_detection (algorithm : SymmetricEncryptionAlgorithm)
    (key : SymmetricKey) (plainText : Str) (entropy : Nat → Nat)
    (obj : EncryptionDataObject) (halg : isGcm algorithm = true)
    (henc : encrypt algorithm key plainText entropy = .ok obj) :
    (∀ ivF : Str, isValidHex ivF = true → hexDecode ivF ≠ obj.iv →
      decrypt (joinColon [algId algorithm, ivF, hexEncode (obj.authTag.getD []),
        hexEncode obj.ciphertext]) key = .err .decryptionFailed) ∧
    (∀ tagF : Str, isValidHex tagF = true → hexDecode tagF ≠ obj.authTag.getD [] →
      decrypt (joinColon [algId algorithm, hexEncode obj.iv, tagF,
        hexEncode obj.ciphertext]) key = .err .decryptionFailed) ∧
    (∀ ctF : Str, isValidHex ctF = true → hexDecode ctF ≠ obj.ciphertext →
      decrypt (joinColon [algId algorithm, hexEncode obj.iv,
        hexEncode (obj.authTag.getD []), ctF]) key = .err .decryptionFailed) := by
  obtain ⟨hpt, hkey⟩ := encrypt_ok_inversion algorithm key plainText entropy obj henc
  rw [encrypt_eq_ok_gcm algorithm key plainText entropy halg hpt hkey] at henc
  injection henc with henc
  subst henc
  have hivb := encIv_lt algorithm entropy
  have hctb := gcmCt_lt algorithm key plainText entropy
  have htagvalid : isValidHex (hexEncode (gcmTag algorithm key plainText entropy)) = true :=
    isValidHex_hexEncode _ (mkTag_ne_nil _ _ _) (mkTag_lt _ _ _)
  have hctvalid : isValidHex (hexEncode (gcmCt algorithm key plainText entropy)) = true :=
    isValidHex_hexEncode _ (gcmCt_ne_nil algorithm key plainText entropy hpt) hctb
  have hivvalid : isValidHex (hexEncode (encIv algorithm entropy)) = true :=
    isValidHex_hexEncode _ (encIv_ne_nil algorithm entropy) hivb
  refine ⟨?_, ?_, ?_⟩
  · intro ivF hv hdiff
    simp only [gcmObj, Option.getD_some] at hdiff ⊢
    rw [decrypt_gcm_valid_fields algorithm key ivF _ _ halg hv htagvalid hctvalid hkey]
    rw [hexDecode_hexEncode (gcmTag algorithm key plainText entropy) (mkTag_lt _ _ _),
      hexDecode_hexEncode (gcmCt algorithm key plainText entropy) hctb]
    have hne : gcmTag algorithm key plainText entropy ≠
        mkTag key.rawKey (hexDecode ivF) (gcmCt algorithm key plainText entropy) := by
      intro heq
      unfold gcmTag at heq
      have hinj := mkTag_inj hivb (hexDecode_lt ivF) hctb hctb heq
      exact hdiff hinj.1.symm
    unfold gcmDecryptBlock
    rw [if_neg hne]
  · intro tagF hv hdiff
    simp only [gcmObj, Option.getD_some] at hdiff ⊢
    rw [decrypt_gcm_valid_fields algorithm key _ tagF _ halg hivvalid hv hctvalid hkey]
    rw [hexDecode_hexEncode (encIv algorithm entropy) hivb,
      hexDecode_hexEncode (gcmCt algorithm key plainText entropy) hctb]
    have hne : hexDecode tagF ≠
        mkTag key.rawKey (encIv algorithm entropy)
          (gcmCt algorithm key plainText entropy) := by
      intro heq
      exact hdiff heq
    unfold gcmDecryptBlock
    rw [if_neg hne]
  · intro ctF hv hdiff
    simp only [gcmObj, Option.getD_some] at hdiff ⊢
    rw [decrypt_gcm_valid_fields algorithm key _ _ ctF halg hivvalid htagvalid hv hkey]
    rw [hexDecode_hexEncode (encIv algorithm entropy) hivb,
      hexDecode_hexEncode (gcmTag algorithm key plainText entropy) (mkTag_lt _ _ _)]
    have hne : gcmTag algorithm key plainText entropy ≠
        mkTag key.rawKey (encIv algorithm entropy) (hexDecode ctF) := by
      intro heq
      unfold gcmTag at heq
      have hinj := mkTag_inj hivb hivb hctb (hexDecode_lt ctF) heq
      exact hdiff hinj.2.symm
    unfold gcmDecryptBlock
    rw [if_neg hne]

def c2Key : SymmetricKey := ⟨List.replicate 16 1⟩

def c2Obj : EncryptionDataObject :=
  gcmObj .aes128gcm c2Key "hi".toList (fun _ => 0xab)

def c2IvField : Str := (splitOnColon c2Obj.token).getD 1 []

def c2IvFieldUpper : Str := "ABABABABABABABABABABAB".toList

def c2TamperedToken : Str :=
  joinColon [(splitOnColon c2Obj.token).getD 0 [], c2IvFieldUpper,
    (splitOnColon c2Obj.token).getD 2 [], (splitOnColon c2Obj.token).getD 3 []]

set_option maxRecDepth 100000 in
/-- C2 counterexample: in a valid `aes-128-gcm` token whose IV field is
`"ababababababababababab"`, replacing that field with its uppercase
variant — a hexadecimal string that differs from the original field —
does NOT make `decrypt` fail: Node's hex decoder is case-insensitive,
both spellings decode to the same IV bytes, and decryption succeeds
with the original plaintext instead of failing with `DecryptionFailed`. -/
theorem C2_counterexample :
    encrypt .aes128gcm c2Key "hi".toList (fun _ => 0xab) = .ok c2Obj ∧
    c2IvField = "ababababababababababab".toList ∧
    c2IvFieldUpper ≠ c2IvField ∧
    isValidHex c2IvFieldUpper = true ∧
    decrypt c2TamperedToken c2Key = .ok "hi".toList := by
  decide

set_option maxRecDepth 10000 in
theorem C2_tamper_detection_witness :
    decrypt (joinColon [algId .aes128gcm, hexEncode c2Obj.iv,
      hexEncode (c2Obj.authTag.getD []), "00".toList]) c2Key =
      .err .decryptionFailed :=
  (C2_tamper_detection .aes128gcm c2Key "hi".toList (fun _ => 0xab) c2Obj rfl
    (by decide)).2.2 "00".toList (by decide) (by decide)
